import Mathlib

/-!
A verification development for the `bevy_console_two` crate: a shallow
embedding in Lean 4 of the console core (permission levels, convar flags,
typed console variables, the fuzzy matcher, the tokenizer, the command
splitter, the prefix trie, the registry, and the queued execution
pipeline), together with theorems settling the specification claims.

Conventions of the embedding:
* Rust `&str` / `String` values are modelled as Lean `String` or `List Char`;
  byte indices of the source coincide with the character indices used here on
  the ASCII inputs the theorems evaluate.
* Machine integers `i32` / `i64` are modelled as `Int` with explicit range
  checks where the source's parsing enforces them; the scoring arithmetic of
  the matcher is modelled as `Int` (the source's `i32` cannot overflow on the
  inputs considered).
* `f32` / `f64` convar instances are IEEE-754 floating point and are not
  modelled; no theorem below depends on them.
* Mutating Rust methods are modelled by explicit state passing: a method
  `fn set(&mut self, v) -> bool` becomes a function returning `Bool × State`.
* Fallible operations return `Option` / `Except`.
-/

namespace BevyConsoleTwo

/-- Permission level for console access control (`core/permissions.rs`,
`PermissionLevel`): a three-tier total order `User < Admin < Server`,
represented in the source as `repr(u8)` discriminants 0, 1, 2 with derived
`Ord`. -/
inductive PermissionLevel where
  | User
  | Admin
  | Server
deriving DecidableEq, Repr

/-- The `u8` discriminant of a permission level; the derived `Ord` of the
source compares these. -/
def PermissionLevel.toNat : PermissionLevel → Nat
  | .User => 0
  | .Admin => 1
  | .Server => 2

/-- `PermissionLevel::name` (`core/permissions.rs`). -/
def PermissionLevel.name : PermissionLevel → String
  | .User => "User"
  | .Admin => "Admin"
  | .Server => "Server"

/-- `ConsolePermissions` (`core/permissions.rs`): resource tracking the
current console permission level. -/
structure ConsolePermissions where
  current_level : PermissionLevel
deriving DecidableEq, Repr

/-- `ConsolePermissions::default` (`core/permissions.rs`): defaults to
`Server` (unrestricted). -/
def ConsolePermissions.defaultPerms : ConsolePermissions :=
  { current_level := PermissionLevel.Server }

/-- `ConsolePermissions::has_permission`: true iff `current_level >= required`
under the derived discriminant order. -/
def ConsolePermissions.has_permission (p : ConsolePermissions)
    (required : PermissionLevel) : Bool :=
  required.toNat ≤ p.current_level.toNat

/-- `ConVarFlags` (`core/convar.rs`): a `u32` bitset. The bit values below
are the source's constants. -/
structure ConVarFlags where
  bits : Nat
deriving DecidableEq, Repr

/-- `ConVarFlags::NONE`. -/
def ConVarFlags.NONE : ConVarFlags := ⟨0⟩

/-- `ConVarFlags::ARCHIVE` (bit 0). -/
def ConVarFlags.ARCHIVE : ConVarFlags := ⟨1⟩

/-- `ConVarFlags::CHEAT` (bit 1). -/
def ConVarFlags.CHEAT : ConVarFlags := ⟨2⟩

/-- `ConVarFlags::READ_ONLY` (bit 2). -/
def ConVarFlags.READ_ONLY : ConVarFlags := ⟨4⟩

/-- `ConVarFlags::HIDDEN` (bit 3). -/
def ConVarFlags.HIDDEN : ConVarFlags := ⟨8⟩

/-- `ConVarFlags::NOTIFY` (bit 4). -/
def ConVarFlags.NOTIFY : ConVarFlags := ⟨16⟩

/-- `ConVarFlags::DEV_ONLY` (bit 5). -/
def ConVarFlags.DEV_ONLY : ConVarFlags := ⟨32⟩

/-- `ConVarFlags::contains`: `(self.0 & other.0) == other.0`. -/
def ConVarFlags.contains (a b : ConVarFlags) : Bool :=
  a.bits &&& b.bits == b.bits

/-- `ConVarFlags::union`: bitwise or. -/
def ConVarFlags.union (a b : ConVarFlags) : ConVarFlags :=
  ⟨a.bits ||| b.bits⟩

/-- The operations of the `ConVarValue` trait (`core/convar.rs`) for one
concrete value type `α`, packaged as a record: `parse`, `format`, `clamp`
(two-sided saturate against optional bounds) and `supports_bounds`. A trait
dictionary of the source becomes an explicit record argument here. -/
structure ConVarValueImpl (α : Type) where
  parseV : String → Option α
  formatV : α → String
  clampV : α → Option α → Option α → α
  supports_bounds : Bool

/-- ASCII lowercase of one character (Rust `u8::to_ascii_lowercase` /
`eq_ignore_ascii_case`; on the ASCII strings considered this also agrees
with `str::to_lowercase`). -/
def asciiLower (c : Char) : Char :=
  if 'A' ≤ c ∧ c ≤ 'Z' then Char.ofNat (c.toNat + 32) else c

/-- Lowercase an entire string character-wise (model of
`str::to_lowercase` on ASCII content). -/
def lowerString (s : String) : String :=
  String.mk (s.data.map asciiLower)

/-- `<bool as ConVarValue>::parse`: accepts true/1/yes/on and
false/0/no/off case-insensitively. -/
def boolParse (s : String) : Option Bool :=
  if lowerString s = "true" ∨ lowerString s = "1" ∨ lowerString s = "yes"
      ∨ lowerString s = "on" then some true
  else if lowerString s = "false" ∨ lowerString s = "0" ∨ lowerString s = "no"
      ∨ lowerString s = "off" then some false
  else none

/-- The `ConVarValue` instance for `bool`: formats as "1"/"0", ignores
bounds, does not support bounds. -/
def boolImpl : ConVarValueImpl Bool where
  parseV := boolParse
  formatV := fun b => if b then "1" else "0"
  clampV := fun v _ _ => v
  supports_bounds := false

/-- Decimal value of a run of digits, or `none` if any character is not an
ASCII digit or the run is empty (the digit-consuming core of Rust's integer
`FromStr`). -/
def digitsToNat : List Char → Option Nat
  | [] => none
  | l => l.foldl (fun acc c => match acc with
      | none => none
      | some n => if c.isDigit then some (n * 10 + (c.toNat - 48)) else none)
      (some 0)

/-- Rust's integer `FromStr` grammar for a bounded signed integer type:
an optional sign, then one or more ASCII digits, with the value required to
lie in `[lo, hi]` (Rust reports out-of-range input as a parse error). -/
def parseIntRust (lo hi : Int) (s : String) : Option Int :=
  let core : List Char → Bool → Option Int := fun digits neg =>
    match digitsToNat digits with
    | none => none
    | some n =>
      let v : Int := if neg then -(n : Int) else (n : Int)
      if lo ≤ v ∧ v ≤ hi then some v else none
  match s.data with
  | [] => none
  | '+' :: rest => core rest false
  | '-' :: rest => core rest true
  | l => core l false

/-- The shared numeric clamp of the source's integer instances:
`if let Some(min) = min { v = v.max(min) }; if let Some(max) = max
{ v = v.min(max) }`. -/
def intClamp (v : Int) (mn mx : Option Int) : Int :=
  let v1 := match mn with
    | some m => max v m
    | none => v
  match mx with
  | some m => min v1 m
  | none => v1

/-- The `ConVarValue` instance for `i32`: `s.parse().ok()` with the `i32`
range, `to_string` formatting, two-sided clamp, supports bounds. -/
def i32Impl : ConVarValueImpl Int where
  parseV := parseIntRust (-(2 ^ 31)) (2 ^ 31 - 1)
  formatV := toString
  clampV := intClamp
  supports_bounds := true

/-- The `ConVarValue` instance for `i64`, identical to `i32` except for the
range. -/
def i64Impl : ConVarValueImpl Int where
  parseV := parseIntRust (-(2 ^ 63)) (2 ^ 63 - 1)
  formatV := toString
  clampV := intClamp
  supports_bounds := true

/-- The `ConVarValue` instance for `String`: parsing always succeeds with the
input itself, formatting is the identity, bounds are ignored. -/
def stringImpl : ConVarValueImpl String where
  parseV := fun s => some s
  formatV := fun s => s
  clampV := fun v _ _ => v
  supports_bounds := false

/-- `ConVar<T>` (`core/convar.rs`): a typed console variable with current
value, default, flags, optional inclusive bounds and required permission. -/
structure ConVar (α : Type) where
  name : String
  value : α
  default : α
  flags : ConVarFlags
  description : String
  min : Option α
  max : Option α
  required_permission : PermissionLevel
deriving DecidableEq, Repr

/-- `ConVar::new`: current value starts equal to the default, no flags, no
bounds, `User` permission. -/
def ConVar.new (name : String) (default : α) : ConVar α :=
  { name := name, value := default, default := default
    flags := ConVarFlags.NONE, description := ""
    min := none, max := none
    required_permission := PermissionLevel.User }

/-- `ConVar::description` builder. -/
def ConVar.withDescription (cv : ConVar α) (d : String) : ConVar α :=
  { cv with description := d }

/-- `ConVar::flags` builder. -/
def ConVar.withFlags (cv : ConVar α) (f : ConVarFlags) : ConVar α :=
  { cv with flags := f }

/-- `ConVar::min` builder: records the bound and re-clamps the current value
(but not the default). -/
def ConVar.withMin (impl : ConVarValueImpl α) (cv : ConVar α) (m : α) :
    ConVar α :=
  let cv := { cv with min := some m }
  { cv with value := impl.clampV cv.value cv.min cv.max }

/-- `ConVar::max` builder: records the bound and re-clamps the current value
(but not the default). -/
def ConVar.withMax (impl : ConVarValueImpl α) (cv : ConVar α) (m : α) :
    ConVar α :=
  let cv := { cv with max := some m }
  { cv with value := impl.clampV cv.value cv.min cv.max }

/-- `ConVar::permission` builder. -/
def ConVar.withPermission (cv : ConVar α) (p : PermissionLevel) : ConVar α :=
  { cv with required_permission := p }

/-- `ConVar::set`: fails (old state kept) when `READ_ONLY` is set, otherwise
stores the clamped value. -/
def ConVar.set (impl : ConVarValueImpl α) (cv : ConVar α) (v : α) :
    Bool × ConVar α :=
  if cv.flags.contains ConVarFlags.READ_ONLY then (false, cv)
  else (true, { cv with value := impl.clampV v cv.min cv.max })

/-- `ConVar::reset`: restores the default unless `READ_ONLY` is set. The
restored default is not clamped. -/
def ConVar.reset (cv : ConVar α) : ConVar α :=
  if cv.flags.contains ConVarFlags.READ_ONLY then cv
  else { cv with value := cv.default }

/-- `<ConVar<T> as ConVarDyn>::set_string`: fails when `READ_ONLY` is set or
when parsing fails, otherwise stores the parsed value clamped. -/
def ConVar.set_string (impl : ConVarValueImpl α) (cv : ConVar α)
    (s : String) : Bool × ConVar α :=
  if cv.flags.contains ConVarFlags.READ_ONLY then (false, cv)
  else
    match impl.parseV s with
    | some v => (true, { cv with value := impl.clampV v cv.min cv.max })
    | none => (false, cv)

/-- `<ConVar<T> as ConVarDyn>::get_string`. -/
def ConVar.get_string (impl : ConVarValueImpl α) (cv : ConVar α) : String :=
  impl.formatV cv.value

/-- `<ConVar<T> as ConVarDyn>::is_modified`: current value differs from the
default. -/
def ConVar.is_modified [DecidableEq α] (cv : ConVar α) : Bool :=
  cv.value ≠ cv.default

/-- The double-quote character (written via its code point to keep string
lexing unambiguous). -/
def dquote : Char := Char.ofNat 34

/-- The single-quote character. -/
def squote : Char := Char.ofNat 39

/-- The backslash character. -/
def bslash : Char := Char.ofNat 92

/-- `MatchResult` (`core/matcher.rs`): score plus the matched character
indices in the candidate text. -/
structure MatchResult where
  score : Int
  indices : List Nat
deriving DecidableEq, Repr

/-- Case-insensitive ASCII character comparison
(`u8::eq_ignore_ascii_case`). -/
def eqIgnoreAsciiCase (a b : Char) : Bool :=
  asciiLower a == asciiLower b

/-- The scanning loop of `subsequence_match` (`core/matcher.rs`): walk the
text left to right, matching pattern characters in order. The source indexes
`text_bytes[i - 1]` for the word-start bonus; here the previously scanned
character is carried as `prevChar`. Returns the final pattern position,
score and matched indices. -/
def subseqLoop (pattern : List Char) :
    List Char → Nat → Option Char → Nat → Option Nat → Int → List Nat →
    Nat × Int × List Nat
  | [], _, _, patternIdx, _, score, indices => (patternIdx, score, indices)
  | tc :: rest, i, prevChar, patternIdx, prevMatchIdx, score, indices =>
    if h : patternIdx < pattern.length then
      let pc := pattern.get ⟨patternIdx, h⟩
      if eqIgnoreAsciiCase tc pc then
        let score := score + 1
        let score := match prevMatchIdx with
          | some prev => if prev == i - 1 then score + 10 else score
          | none => score
        let score :=
          if i == 0 then score + 5
          else match prevChar with
            | some p => if p == '_' ∨ p == ' ' ∨ p == '.' then score + 5
                        else score
            | none => score
        subseqLoop pattern rest (i + 1) (some tc) (patternIdx + 1) (some i)
          score (indices ++ [i])
      else
        subseqLoop pattern rest (i + 1) (some tc) patternIdx prevMatchIdx
          score indices
    else (patternIdx, score, indices)

/-- `subsequence_match` (`core/matcher.rs`): all pattern characters must
appear in the text in order, case-insensitively; scoring as in the source
(+1 per match, +20 exact case-insensitive prefix, +10 adjacent to the
previous match, +5 at text start or after an underscore, space or dot). -/
def subsequence_match (pattern text : List Char) : Option MatchResult :=
  if pattern = [] then some ⟨0, []⟩
  else
    let base : Int :=
      if (pattern.map asciiLower).isPrefixOf (text.map asciiLower) then 20
      else 0
    let r := subseqLoop pattern text 0 none 0 none base []
    if r.1 = pattern.length then some ⟨r.2.1, r.2.2⟩ else none

/-- `TokenizeError` (`core/tokenizer.rs`). Positions are character offsets,
equal to the source's byte offsets on ASCII input. -/
inductive TokenizeError where
  | EmptyInput
  | UnterminatedString (position : Nat)
deriving DecidableEq, Repr

/-- `TokenizedCommand` (`core/tokenizer.rs`): first token, remaining tokens,
raw input. Token slices are materialised as character lists. -/
structure TokenizedCommand where
  command : List Char
  args : List (List Char)
  raw : List Char
deriving DecidableEq, Repr

/-- Decidable equality for `Except`, used to evaluate tokenizer results. -/
instance {ε α : Type} [DecidableEq ε] [DecidableEq α] :
    DecidableEq (Except ε α)
  | .ok a, .ok b =>
    if h : a = b then .isTrue (by rw [h])
    else .isFalse (by intro hh; cases hh; exact h rfl)
  | .ok _, .error _ => .isFalse (by intro h; cases h)
  | .error _, .ok _ => .isFalse (by intro h; cases h)
  | .error a, .error b =>
    if h : a = b then .isTrue (by rw [h])
    else .isFalse (by intro hh; cases hh; exact h rfl)

/-- The whitespace characters the tokenizer's scanning loop treats as token
separators (`' ' | '\t' | '\r' | '\n'` in the source). -/
def isWsChar (c : Char) : Bool :=
  c == ' ' ∨ c == '\t' ∨ c == '\r' ∨ c == '\n'

/-- `str::trim`, modelled on these ASCII whitespace characters (full Unicode
whitespace is not modelled; the inputs considered are ASCII). -/
def trimChars (l : List Char) : List Char :=
  ((l.dropWhile isWsChar).reverse.dropWhile isWsChar).reverse

/-- The slice `input[a..b]` of a character list. -/
def sliceChars (l : List Char) (a b : Nat) : List Char :=
  (l.drop a).take (b - a)

/-- `str::find` of a two-character pattern: first index where the pattern
occurs, scanning left to right. -/
def findSub (pat : List Char) : List Char → Nat → Option Nat
  | [], _ => none
  | c :: rest, i =>
    if pat.isPrefixOf (c :: rest) then some i else findSub pat rest (i + 1)

/-- The quoted-string inner loop of `tokenize_string` (`core/tokenizer.rs`):
scan from just after an opening quote `q`; a backslash consumes the
following character (the token's end index advances past it); the loop ends
at an unescaped closing quote. `rest` is the unscanned input, `i` the index
of its head, `endv` the current token end. Returns `(end, rest', i')` past
the closing quote, or `none` when the quote is unterminated. -/
def quotedScan (q : Char) :
    List Char → Nat → Nat → Option (Nat × List Char × Nat)
  | [], _, _ => none
  | c :: rest, i, endv =>
    if c == q then some (endv, rest, i + 1)
    else if c == bslash then
      match rest with
      | [] => none
      | _ :: rest2 => quotedScan q rest2 (i + 2) (i + 2)
    else quotedScan q rest (i + 1) (i + 1)

/-- The regular-token inner loop of `tokenize_string`: extend the token until
whitespace or a quote character (which is left unconsumed). -/
def regScan : List Char → Nat → Nat → Nat × List Char × Nat
  | [], i, endv => (endv, [], i)
  | c :: rest, i, endv =>
    if isWsChar c ∨ c == dquote ∨ c == squote then (endv, c :: rest, i)
    else regScan rest (i + 1) (i + 1)

theorem quotedScan_length {q : Char} :
    ∀ (n : Nat) (rest : List Char), rest.length ≤ n → ∀ i endv r,
      quotedScan q rest i endv = some r → r.2.1.length ≤ rest.length := by
  intro n
  induction n with
  | zero =>
    intro rest hle i endv r h
    cases rest with
    | nil => simp [quotedScan] at h
    | cons c t => simp at hle
  | succ n ih =>
    intro rest hle i endv r h
    cases rest with
    | nil => simp [quotedScan] at h
    | cons c t =>
      rw [quotedScan.eq_def] at h
      simp only [] at h
      by_cases hc : (c == q) = true
      · rw [if_pos hc] at h
        simp at h
        subst h
        simp
      · rw [if_neg hc] at h
        by_cases hb : (c == bslash) = true
        · rw [if_pos hb] at h
          cases t with
          | nil => simp at h
          | cons d t2 =>
            simp only [] at h
            have hlen : t2.length ≤ n := by simp at hle; omega
            have := ih t2 hlen (i + 2) (i + 2) r h
            simp only [List.length_cons]
            omega
        · rw [if_neg hb] at h
          have hlen : t.length ≤ n := by simp at hle; omega
          have := ih t hlen (i + 1) (i + 1) r h
          simp only [List.length_cons]
          omega

theorem regScan_length :
    ∀ (rest : List Char) (i endv : Nat),
      (regScan rest i endv).2.1.length ≤ rest.length := by
  intro rest
  induction rest with
  | nil => intro i endv; simp [regScan]
  | cons c rest ih =>
    intro i endv
    rw [regScan.eq_def]
    simp only []
    split
    · simp
    · exact Nat.le_succ_of_le (ih (i + 1) (i + 1))

/-- The main scanning loop of `tokenize_string` (`core/tokenizer.rs`):
whitespace is skipped; a quote character starts a quoted token (unterminated
quotes report the opening index); any other character starts a regular
token. `input` is the whole scanned string for slicing, `rest` the unscanned
suffix and `i` the index of its head. -/
def tokenizeLoop (input : List Char) :
    List Char → Nat → Except TokenizeError (List (List Char))
  | [], _ => .ok []
  | c :: rest, i =>
    if isWsChar c then tokenizeLoop input rest (i + 1)
    else if c == dquote ∨ c == squote then
      match h : quotedScan c rest (i + 1) (i + 1) with
      | none => .error (.UnterminatedString i)
      | some (endv, rest2, i2) =>
        match tokenizeLoop input rest2 i2 with
        | .error e => .error e
        | .ok ts => .ok (sliceChars input (i + 1) endv :: ts)
    else
      let r := regScan rest (i + 1) (i + 1)
      match tokenizeLoop input r.2.1 r.2.2 with
      | .error e => .error e
      | .ok ts => .ok (sliceChars input i r.1 :: ts)
  termination_by rest => rest.length
  decreasing_by
  · simp
  · have := quotedScan_length rest.length rest le_rfl (i + 1) (i + 1)
      (endv, rest2, i2) h
    simp at this ⊢
    omega
  · have := regScan_length rest (i + 1) (i + 1)
    simp at this ⊢
    omega

/-- `tokenize_string` (`core/tokenizer.rs`): all tokens of the input,
including the command token. -/
def tokenize_string (input : List Char) :
    Except TokenizeError (List (List Char)) :=
  tokenizeLoop input input 0

/-- `tokenize` (`core/tokenizer.rs`): trim, strip everything from the first
occurrence of two slashes (the source searches with `str::find`, with no
quote tracking), re-trim, report `EmptyInput` on an empty remainder,
tokenize, and split into command and arguments. -/
def tokenize (input : List Char) : Except TokenizeError TokenizedCommand :=
  let t1 := trimChars input
  let t2 := match findSub ['/', '/'] t1 0 with
    | some p => trimChars (t1.take p)
    | none => t1
  if t2 = [] then .error .EmptyInput
  else
    match tokenize_string t2 with
    | .error e => .error e
    | .ok [] => .error .EmptyInput
    | .ok (t :: ts) => .ok ⟨t, ts, input⟩

/-- The scanning loop of `split_commands` (`core/tokenizer.rs`): track
double/single quote state and the count of consecutive preceding
backslashes; a quote toggles its state only when that count is even and the
other quote kind is not open; an unquoted semicolon ends the current
sub-command, which is trimmed and dropped when empty. -/
def splitGo (input : List Char) :
    List Char → Nat → Nat → Bool → Bool → Nat → List (List Char) →
    List (List Char)
  | [], _, start, _, _, _, acc =>
    let cmd := trimChars (input.drop start)
    if cmd = [] then acc else acc ++ [cmd]
  | c :: rest, i, start, inDq, inSq, bs, acc =>
    if c == bslash then splitGo input rest (i + 1) start inDq inSq (bs + 1) acc
    else if c == dquote ∧ inSq = false then
      splitGo input rest (i + 1) start
        (if bs % 2 == 0 then !inDq else inDq) inSq 0 acc
    else if c == squote ∧ inDq = false then
      splitGo input rest (i + 1) start inDq
        (if bs % 2 == 0 then !inSq else inSq) 0 acc
    else if c == ';' ∧ inDq = false ∧ inSq = false then
      let cmd := trimChars (sliceChars input start i)
      splitGo input rest (i + 1) (i + 1) inDq inSq 0
        (if cmd = [] then acc else acc ++ [cmd])
    else splitGo input rest (i + 1) start inDq inSq 0 acc

/-- `split_commands` (`core/tokenizer.rs`). -/
def split_commands (input : List Char) : List (List Char) :=
  splitGo input input 0 0 false false 0 []

/-- One operation on a typed console variable, as named by the spec:
typed set, string set, reset, and the min/max builder steps. -/
inductive VarOp (α : Type) where
  | setOp (v : α)
  | setStringOp (s : String)
  | resetOp
  | minOp (m : α)
  | maxOp (m : α)
deriving DecidableEq, Repr

/-- Apply one variable operation, discarding the success flag (the stored
state is what the bounds invariant is about). -/
def applyVarOp (impl : ConVarValueImpl α) (cv : ConVar α) :
    VarOp α → ConVar α
  | .setOp v => (cv.set impl v).2
  | .setStringOp s => (cv.set_string impl s).2
  | .resetOp => cv.reset
  | .minOp m => cv.withMin impl m
  | .maxOp m => cv.withMax impl m

/-- A value lies within the optional inclusive bounds. -/
def boundsOk (mn mx : Option Int) (v : Int) : Bool :=
  (match mn with
    | some m => decide (m ≤ v)
    | none => true)
  && (match mx with
    | some m => decide (v ≤ m)
    | none => true)

/-- The claim's invariant for an integer variable: the stored current value
lies within the declared bounds. -/
def inBoundsInt (cv : ConVar Int) : Bool :=
  boundsOk cv.min cv.max cv.value

/-- The default value lies within the declared bounds. -/
def defaultInBoundsInt (cv : ConVar Int) : Bool :=
  boundsOk cv.min cv.max cv.default

/-- The declared bounds are not crossed: `min ≤ max` whenever both are
set. -/
def wfBoundsInt (cv : ConVar Int) : Bool :=
  match cv.min, cv.max with
  | some a, some b => decide (a ≤ b)
  | _, _ => true

/-- A node of the prefix trie (`core/trie.rs`, `TrieNode`): children keyed
by one character (the source keys by byte; on the names considered these
coincide), an optional stored value, and — when a value is present — the
full key, recorded to avoid key reconstruction during iteration. The
source's `HashMap<u8, TrieNode>` is modelled as an association list with
distinct keys. -/
inductive TrieNode (V : Type) where
  | mk (children : List (Char × TrieNode V)) (value : Option V)
       (keyOf : Option String)

/-- The children of a node. -/
def TrieNode.children : TrieNode V → List (Char × TrieNode V)
  | .mk c _ _ => c

/-- The stored value of a node. -/
def TrieNode.value : TrieNode V → Option V
  | .mk _ v _ => v

/-- The recorded full key of a node. -/
def TrieNode.keyOf : TrieNode V → Option String
  | .mk _ _ k => k

/-- `TrieNode::default`: empty children, no value, no key. -/
def TrieNode.empty : TrieNode V := .mk [] none none

/-- Lookup of one child (the `HashMap::get` of the source). -/
def getChild : List (Char × TrieNode V) → Char → Option (TrieNode V)
  | [], _ => none
  | (d, n) :: rest, c => if d = c then some n else getChild rest c

/-- Insert-or-update of one child (the `HashMap::entry(..).or_default()`
mutation of the source). -/
def setChild : List (Char × TrieNode V) → Char → TrieNode V →
    List (Char × TrieNode V)
  | [], c, n => [(c, n)]
  | (d, m) :: rest, c, n =>
    if d = c then (c, n) :: rest else (d, m) :: setChild rest c n

/-- The descent loop of `Trie::insert`: walk (creating missing children)
along the key's characters, then store the value and the full key at the
final node, returning the previous value. -/
def TrieNode.insertGo : List Char → String → V → TrieNode V →
    Option V × TrieNode V
  | [], full, v, .mk cs val _ => (val, .mk cs (some v) (some full))
  | c :: rest, full, v, node =>
    let child := (getChild node.children c).getD TrieNode.empty
    let (old, child2) := TrieNode.insertGo rest full v child
    (old, .mk (setChild node.children c child2) node.value node.keyOf)

/-- The descent loop of `Trie::get`. -/
def TrieNode.getGo : List Char → TrieNode V → Option V
  | [], node => node.value
  | c :: rest, node =>
    match getChild node.children c with
    | none => none
    | some child => TrieNode.getGo rest child

/-- Walk to the node reached by a prefix (the descent loop of
`Trie::prefix_iter`). -/
def TrieNode.descend : List Char → TrieNode V → Option (TrieNode V)
  | [], node => some node
  | c :: rest, node =>
    match getChild node.children c with
    | none => none
    | some child => TrieNode.descend rest child

/-- The pair a node itself contributes to iteration: the source's iterator
yields `(key, value)` when both the recorded key and the value are
present. -/
def nodeEntry (key : Option String) (val : Option V) : List (String × V) :=
  match key, val with
  | some k, some v => [(k, v)]
  | _, _ => []

/-- All `(key, value)` pairs of a subtree. The source's `PrefixIter`
enumerates these pairs with an explicit stack in an unspecified order
(backed by `HashMap` children); this model enumerates the same set
depth-first. -/
def TrieNode.collect : TrieNode V → List (String × V)
  | .mk cs val key =>
    nodeEntry key val ++ cs.attach.flatMap (fun x => TrieNode.collect x.1.2)
  decreasing_by
    obtain ⟨⟨ch, nd⟩, hmem⟩ := x
    have := List.sizeOf_lt_of_mem hmem
    simp at this ⊢
    omega

/-- `Trie` (`core/trie.rs`): root node plus the count of stored values. -/
structure Trie (V : Type) where
  root : TrieNode V
  len : Nat

/-- `Trie::new`. -/
def Trie.newT : Trie V := ⟨TrieNode.empty, 0⟩

/-- `Trie::insert`: returns the previous value; `len` grows only when the
key is new. -/
def Trie.insert (t : Trie V) (key : String) (v : V) : Option V × Trie V :=
  let r := TrieNode.insertGo key.data key v t.root
  (r.1, ⟨r.2, if r.1.isNone then t.len + 1 else t.len⟩)

/-- `Trie::get`. -/
def Trie.get (t : Trie V) (key : String) : Option V :=
  TrieNode.getGo key.data t.root

/-- `Trie::contains`. -/
def Trie.containsT (t : Trie V) (key : String) : Bool :=
  (t.get key).isSome

/-- `Trie::prefix_iter`: empty when the prefix leads nowhere, otherwise all
pairs of the subtree under the prefix node. -/
def Trie.prefixIter (t : Trie V) (p : String) : List (String × V) :=
  match TrieNode.descend p.data t.root with
  | none => []
  | some node => node.collect

/-- Well-formedness of a trie node sitting at `path`: a stored value comes
with the recorded full key equal to the path, the children carry distinct
characters, and every child is well-formed one character deeper. Tries
built by insertions from the empty trie satisfy this. -/
inductive NodeWF : List Char → TrieNode V → Prop where
  | mk : ∀ (path : List Char) (cs : List (Char × TrieNode V))
      (val : Option V) (key : Option String),
      (val.isSome → ∃ s : String, key = some s ∧ s.data = path) →
      (cs.map Prod.fst).Nodup →
      (∀ c child, (c, child) ∈ cs → NodeWF (path ++ [c]) child) →
      NodeWF path (TrieNode.mk cs val key)

/-- First-match lookup in an association list modelling a `HashMap`. -/
def mapGet (m : List (String × β)) (k : String) : Option β :=
  match m with
  | [] => none
  | (k2, v) :: rest => if k2 = k then some v else mapGet rest k

/-- `HashMap::insert` modelled on an association list: replace the binding
when the key is present, append otherwise. -/
def mapInsert (m : List (String × β)) (k : String) (v : β) :
    List (String × β) :=
  match m with
  | [] => [(k, v)]
  | (k2, v2) :: rest =>
    if k2 = k then (k, v) :: rest else (k2, v2) :: mapInsert rest k v

/-- `HashMap::contains_key`. -/
def mapContainsKey (m : List (String × β)) (k : String) : Bool :=
  (mapGet m k).isSome

/-- `HashMap::remove`: the removed value (if any) and the remaining map. -/
def mapRemove (m : List (String × β)) (k : String) :
    Option β × List (String × β) :=
  match m with
  | [] => (none, [])
  | (k2, v) :: rest =>
    if k2 = k then (some v, rest)
    else
      let r := mapRemove rest k
      (r.1, (k2, v) :: r.2)

/-- The type-erased variable store `Box<dyn ConVarDyn>` (`core/convar.rs`),
modelled as a closed sum over the trait's implementors, as each variant
tags a typed `ConVar`. The `f32` / `f64` implementors exist in the source
but are floating point and not modelled; no claim settled here depends on
them. -/
inductive DynVar where
  | dBool (cv : ConVar Bool)
  | dI32 (cv : ConVar Int)
  | dI64 (cv : ConVar Int)
  | dStr (cv : ConVar String)
deriving DecidableEq, Repr

/-- The name of the wrapped variable. -/
def DynVar.nameD : DynVar → String
  | .dBool cv => cv.name
  | .dI32 cv => cv.name
  | .dI64 cv => cv.name
  | .dStr cv => cv.name

/-- The description of the wrapped variable. -/
def DynVar.descD : DynVar → String
  | .dBool cv => cv.description
  | .dI32 cv => cv.description
  | .dI64 cv => cv.description
  | .dStr cv => cv.description

/-- The flags of the wrapped variable. -/
def DynVar.flagsD : DynVar → ConVarFlags
  | .dBool cv => cv.flags
  | .dI32 cv => cv.flags
  | .dI64 cv => cv.flags
  | .dStr cv => cv.flags

/-- The required permission of the wrapped variable. -/
def DynVar.permD : DynVar → PermissionLevel
  | .dBool cv => cv.required_permission
  | .dI32 cv => cv.required_permission
  | .dI64 cv => cv.required_permission
  | .dStr cv => cv.required_permission

/-- `ConVarDyn::get_string`, dispatched on the variant. -/
def DynVar.getStringD : DynVar → String
  | .dBool cv => cv.get_string boolImpl
  | .dI32 cv => cv.get_string i32Impl
  | .dI64 cv => cv.get_string i64Impl
  | .dStr cv => cv.get_string stringImpl

/-- `ConVarDyn::set_string`, dispatched on the variant. -/
def DynVar.setStringD : DynVar → String → Bool × DynVar
  | .dBool cv, s => let r := cv.set_string boolImpl s; (r.1, .dBool r.2)
  | .dI32 cv, s => let r := cv.set_string i32Impl s; (r.1, .dI32 r.2)
  | .dI64 cv, s => let r := cv.set_string i64Impl s; (r.1, .dI64 r.2)
  | .dStr cv, s => let r := cv.set_string stringImpl s; (r.1, .dStr r.2)

/-- `ConVarDyn::reset`, dispatched on the variant. -/
def DynVar.resetD : DynVar → DynVar
  | .dBool cv => .dBool cv.reset
  | .dI32 cv => .dI32 cv.reset
  | .dI64 cv => .dI64 cv.reset
  | .dStr cv => .dStr cv.reset

/-- `registry.get::<i32>(..)` seen from a type-erased variable: the runtime
downcast succeeds exactly on the `i32` variant, then `ConVar::get` reads the
current value. -/
def DynVar.asI32 : DynVar → Option Int
  | .dI32 cv => some cv.value
  | _ => none

/-- `ConVarMeta` (`core/registry.rs`): the metadata record stored for a
variable, wrapping the type-erased value. -/
structure ConVarMeta where
  name : String
  description : String
  flags : ConVarFlags
  required_permission : PermissionLevel
  value : DynVar
deriving DecidableEq, Repr

/-- `ConVarMeta::from_convar`. -/
def ConVarMeta.from_convar (d : DynVar) : ConVarMeta :=
  ⟨d.nameD, d.descD, d.flagsD, d.permD, d⟩

/-- `ConVarMeta::get_string`. -/
def ConVarMeta.getStringM (m : ConVarMeta) : String :=
  m.value.getStringD

/-- `ConVarMeta::set_string`. -/
def ConVarMeta.setStringM (m : ConVarMeta) (s : String) : Bool × ConVarMeta :=
  let r := m.value.setStringD s
  (r.1, { m with value := r.2 })

/-- `ConCommandMeta` (`core/concommand.rs`). -/
structure ConCommandMeta where
  name : String
  description : String
  flags : ConVarFlags
  required_permission : PermissionLevel
deriving DecidableEq, Repr

/-- `ConEntry` (`core/registry.rs`): a registry entry is a variable or a
command. -/
inductive ConEntry where
  | Var (meta : ConVarMeta)
  | Cmd (meta : ConCommandMeta)
deriving DecidableEq, Repr

/-- `ConsoleRegistry` (`core/registry.rs`): a trie over the names (storing
`()` to save memory) next to the entry map. -/
structure ConsoleRegistry where
  trie : Trie Unit
  entries : List (String × ConEntry)

/-- `ConsoleRegistry::new`. -/
def ConsoleRegistry.newR : ConsoleRegistry := ⟨Trie.newT, []⟩

/-- `ConsoleRegistry::register_var`: insert the name into the trie and the
entry into the map; returns `true` when the name is new (a duplicate is
reported as a warning and overwritten). -/
def ConsoleRegistry.register_var (r : ConsoleRegistry) (d : DynVar) :
    Bool × ConsoleRegistry :=
  let name := d.nameD
  let is_duplicate := mapContainsKey r.entries name
  let t2 := (r.trie.insert name ()).2
  (!is_duplicate,
    ⟨t2, mapInsert r.entries name (ConEntry.Var (ConVarMeta.from_convar d))⟩)

/-- `ConsoleRegistry::register_cmd_meta`. -/
def ConsoleRegistry.register_cmd_meta (r : ConsoleRegistry)
    (meta : ConCommandMeta) : Bool × ConsoleRegistry :=
  let name := meta.name
  let is_duplicate := mapContainsKey r.entries name
  let t2 := (r.trie.insert name ()).2
  (!is_duplicate, ⟨t2, mapInsert r.entries name (ConEntry.Cmd meta)⟩)

/-- `ConsoleRegistry::get_entry`. -/
def ConsoleRegistry.get_entry (r : ConsoleRegistry) (name : String) :
    Option ConEntry :=
  mapGet r.entries name

/-- `ConsoleRegistry::contains`. -/
def ConsoleRegistry.containsR (r : ConsoleRegistry) (name : String) : Bool :=
  mapContainsKey r.entries name

/-- `ConsoleRegistry::get::<i32>`: present entry, variable, successful
downcast. -/
def ConsoleRegistry.getI32 (r : ConsoleRegistry) (name : String) :
    Option Int :=
  match r.get_entry name with
  | some (.Var meta) => meta.value.asI32
  | _ => none

/-- `ConsoleRegistry::get_string`. -/
def ConsoleRegistry.getStringR (r : ConsoleRegistry) (name : String) :
    Option String :=
  match r.get_entry name with
  | some (.Var meta) => some meta.getStringM
  | _ => none

/-- `ConsoleRegistry::prefix_iter`: trie pairs under the prefix, looked back
up in the entry map. -/
def ConsoleRegistry.prefixIterR (r : ConsoleRegistry) (p : String) :
    List (String × ConEntry) :=
  (r.trie.prefixIter p).filterMap
    (fun x => (mapGet r.entries x.1).map (fun e => (x.1, e)))

/-- `CommandArgs` (`core/concommand.rs`), as built by the pipeline: raw
string and argument list. -/
structure CommandArgsM where
  raw : String
  args : List String

/-- `ConsoleOutputLevel` (`core/events.rs`). -/
inductive OutputLevel where
  | Debug
  | Info
  | Warn
  | Error
  | Command
  | Result
deriving DecidableEq, Repr

/-- `ConsoleOutputEvent` (`core/events.rs`). -/
structure OutputEvent where
  message : String
  level : OutputLevel
deriving DecidableEq, Repr

/-- `ConsoleOutputEvent::error`. -/
def OutputEvent.errorE (m : String) : OutputEvent := ⟨m, .Error⟩

/-- `ConsoleOutputEvent::info`. -/
def OutputEvent.infoE (m : String) : OutputEvent := ⟨m, .Info⟩

/-- `ConsoleOutputEvent::result`. -/
def OutputEvent.resultE (m : String) : OutputEvent := ⟨m, .Result⟩

/-- `ConsoleOutputEvent::command`. -/
def OutputEvent.commandE (m : String) : OutputEvent := ⟨m, .Command⟩

/-- `ConVarChangedEvent` (`core/events.rs`). -/
structure ChangeEvent where
  name : String
  old_value : String
  new_value : String
deriving DecidableEq, Repr

/-- `QueuedCommand` (`lib.rs`): raw line, resolved name, arguments. -/
structure QueuedCommand where
  raw : String
  name : String
  args : List String
deriving DecidableEq, Repr

/-- `PendingCommands` (`lib.rs`): queue of invocations plus buffered
outputs, change notifications and the clear request. -/
structure PendingCommands where
  queue : List QueuedCommand
  outputs : List OutputEvent
  changes : List ChangeEvent
  clear_console : Bool

/-- The world as a handler sees it while `resource_scope` holds
`CommandHandlers` out of the world: registry, permissions and pending
buffers. -/
structure HandlerWorld where
  registry : ConsoleRegistry
  perms : ConsolePermissions
  pending : PendingCommands

/-- A `CommandHandler` (`core/concommand.rs`): a function of the arguments
and the mutable world. Abnormal termination (a Rust panic caught by
`catch_unwind`) is modelled as an optional panic message returned next to
the world state at the point of failure. -/
def Handler : Type := CommandArgsM → HandlerWorld → HandlerWorld × Option String

/-- `CommandHandlers` (`core/registry.rs`): executable handlers and
autocomplete providers keyed by name, separate from the registry. -/
structure CommandHandlers where
  handlers : List (String × Handler)
  autocomplete : List (String × (String → List String))

/-- `CommandHandlers::register`. -/
def CommandHandlers.register (h : CommandHandlers) (name : String)
    (f : Handler) (ac : Option (String → List String)) : CommandHandlers :=
  { handlers := mapInsert h.handlers name f
    autocomplete := match ac with
      | some g => mapInsert h.autocomplete name g
      | none => h.autocomplete }

/-- `CommandHandlers::take`: remove a handler temporarily for execution. -/
def CommandHandlers.take (h : CommandHandlers) (name : String) :
    Option Handler × CommandHandlers :=
  let r := mapRemove h.handlers name
  (r.1, { h with handlers := r.2 })

/-- `CommandHandlers::put`: reinsert a handler after execution. -/
def CommandHandlers.put (h : CommandHandlers) (name : String) (f : Handler) :
    CommandHandlers :=
  { h with handlers := mapInsert h.handlers name f }

/-- `ConCommand` (`core/concommand.rs`): metadata plus handler plus
optional autocomplete provider, before `split`. -/
structure ConCommand where
  meta : ConCommandMeta
  handler : Handler
  autocomplete : Option (String → List String)

/-- `ConsoleRegistry::register_cmd`: like `register_cmd_meta` but hands the
handler and autocomplete provider back to the caller for storage in the
separate `CommandHandlers`. -/
def ConsoleRegistry.register_cmd (r : ConsoleRegistry) (cmd : ConCommand) :
    (String × Handler × Option (String → List String) × Bool)
      × ConsoleRegistry :=
  let name := cmd.meta.name
  let is_duplicate := mapContainsKey r.entries name
  let t2 := (r.trie.insert name ()).2
  ((name, cmd.handler, cmd.autocomplete, !is_duplicate),
   ⟨t2, mapInsert r.entries name (ConEntry.Cmd cmd.meta)⟩)

/-- One registry mutation; these are the only content-changing operations
the registry exposes (`core/registry.rs` offers no removal). -/
inductive RegOp where
  | regVar (d : DynVar)
  | regCmdMeta (m : ConCommandMeta)
  | regCmd (c : ConCommand)

/-- The name an operation registers. -/
def RegOp.nameOf : RegOp → String
  | .regVar d => d.nameD
  | .regCmdMeta m => m.name
  | .regCmd c => c.meta.name

/-- Apply one registry operation, discarding the returned values. -/
def applyRegOp (r : ConsoleRegistry) : RegOp → ConsoleRegistry
  | .regVar d => (r.register_var d).2
  | .regCmdMeta m => (r.register_cmd_meta m).2
  | .regCmd c => (r.register_cmd c).2

/-- The registry obtained by a sequence of registrations from `new`. -/
def registryOfOps (ops : List RegOp) : ConsoleRegistry :=
  ops.foldl applyRegOp ConsoleRegistry.newR

/-- The registry's two-store invariant: the trie's root is well-formed and
a name has a trie value exactly when it has an entry in the map. -/
def RegInv (r : ConsoleRegistry) : Prop :=
  NodeWF [] r.trie.root
    ∧ ∀ n : String, (r.trie.get n).isSome = (mapGet r.entries n).isSome

/-- The resources of the Bevy `World` the execution pipeline touches. -/
structure World where
  registry : ConsoleRegistry
  handlers : CommandHandlers
  perms : ConsolePermissions
  pending : PendingCommands

/-- The handler's view of the world (everything but the handler store). -/
def World.sub (w : World) : HandlerWorld :=
  ⟨w.registry, w.perms, w.pending⟩

/-- `check_access` (`lib.rs`): the CHEAT gate first (`sv_cheats` read as an
`i32`, absent or mistyped counting as 0), then the permission gate with a
message naming both levels. -/
def check_access (w : World) (flags : ConVarFlags)
    (required : PermissionLevel) : Except String Unit :=
  if flags.contains ConVarFlags.CHEAT
      ∧ ((w.registry.getI32 "sv_cheats").getD 0 = 0) then
    .error "Requires sv_cheats to be enabled"
  else if w.perms.has_permission required = false then
    .error ("Insufficient permission (requires " ++ required.name
      ++ ", have " ++ w.perms.current_level.name ++ ")")
  else .ok ()

/-- The command-execution block of `execute_pending_commands` (`lib.rs`),
entered after the access gate approved: inside `resource_scope`, `take` the
handler (doing nothing when absent), invoke it on the handler's view of the
world, `put` it back unconditionally, and convert a caught panic into an
error output naming the command. -/
def runCommandBranch (w : World) (cmd : QueuedCommand)
    (outputs : List OutputEvent) : World × List OutputEvent :=
  let tk := w.handlers.take cmd.name
  match tk.1 with
  | none => (⟨w.registry, tk.2, w.perms, w.pending⟩, outputs)
  | some h =>
    let res := h ⟨cmd.raw, cmd.args⟩ w.sub
    let handlers2 := tk.2.put cmd.name h
    let w2 : World := ⟨res.1.registry, handlers2, res.1.perms, res.1.pending⟩
    match res.2 with
    | some m =>
      (w2, outputs
        ++ [OutputEvent.errorE ("Command '" ++ cmd.name ++ "' panicked: " ++ m)])
    | none => (w2, outputs)

/-- The variable-read block of `execute_pending_commands`: result line in
the form `"name" = "value"`, plus a description line when present; no
gate. -/
def runVarReadBranch (w : World) (cmd : QueuedCommand)
    (outputs : List OutputEvent) : List OutputEvent :=
  match w.registry.get_entry cmd.name with
  | some (.Var meta) =>
    outputs
      ++ [OutputEvent.resultE
            ("\"" ++ cmd.name ++ "\" = \"" ++ meta.getStringM ++ "\"")]
      ++ (if meta.description ≠ "" then
            [OutputEvent.infoE (" - " ++ meta.description)]
          else [])
  | _ => outputs

/-- The variable-set block of `execute_pending_commands`, entered after the
access gate approved: join the arguments with single spaces, attempt
`set_string` on the entry in place, emit a result line with the stored
(possibly clamped) value and queue a change notification on success, or an
error on failure. -/
def runVarSetBranch (w : World) (cmd : QueuedCommand)
    (outputs : List OutputEvent) (changes : List ChangeEvent) :
    World × List OutputEvent × List ChangeEvent :=
  let old_value := (w.registry.getStringR cmd.name).getD ""
  let new_value := String.intercalate " " cmd.args
  match w.registry.get_entry cmd.name with
  | some (.Var meta) =>
    let r := meta.setStringM new_value
    let registry2 : ConsoleRegistry :=
      { w.registry with
        entries := mapInsert w.registry.entries cmd.name (ConEntry.Var r.2) }
    let w2 : World := { w with registry := registry2 }
    if r.1 then
      (w2,
        outputs
          ++ [OutputEvent.resultE
                ("\"" ++ cmd.name ++ "\" = \"" ++ r.2.getStringM ++ "\"")],
        changes ++ [⟨cmd.name, old_value, r.2.getStringM⟩])
    else
      (w2,
        outputs
          ++ [OutputEvent.errorE
                ("Cannot set '" ++ cmd.name ++ "': invalid value or read-only")],
        changes)
  | _ => (w, outputs, changes)

/-- One iteration of the queue loop of `execute_pending_commands`
(`lib.rs`): resolve the name, gate and run commands and variable sets, read
variables ungated, report unknown names. The alias fallback of the source
is behind the `persist` feature and compiled out in the configuration
modelled here. -/
def execCmdStep (state : World × List OutputEvent × List ChangeEvent)
    (cmd : QueuedCommand) : World × List OutputEvent × List ChangeEvent :=
  let w := state.1
  let outputs := state.2.1
  let changes := state.2.2
  match w.registry.get_entry cmd.name with
  | some (.Cmd meta) =>
    match check_access w meta.flags meta.required_permission with
    | .error msg =>
      (w,
        outputs
          ++ [OutputEvent.errorE ("Cannot execute '" ++ cmd.name ++ "': " ++ msg)],
        changes)
    | .ok _ =>
      let r := runCommandBranch w cmd outputs
      (r.1, r.2, changes)
  | some (.Var meta) =>
    if cmd.args = [] then
      (w, runVarReadBranch w cmd outputs, changes)
    else
      match check_access w meta.flags meta.required_permission with
      | .error msg =>
        (w,
          outputs
            ++ [OutputEvent.errorE ("Cannot set '" ++ cmd.name ++ "': " ++ msg)],
          changes)
      | .ok _ => runVarSetBranch w cmd outputs changes
  | none =>
    (w,
      outputs
        ++ [OutputEvent.errorE
              ("Unknown command or variable: '" ++ cmd.name ++ "'")],
      changes)

/-- `execute_pending_commands` (`lib.rs`): take the queue and the buffered
outputs and changes out of `PendingCommands`, return early when both the
queue and the outputs are empty (the taken buffers are dropped, as in the
source), otherwise fold the queue and store the resulting outputs and
changes back. -/
def execute_pending_commands (w : World) : World :=
  let queue := w.pending.queue
  let outputs := w.pending.outputs
  let changes := w.pending.changes
  let w1 : World :=
    { w with pending := { w.pending with queue := [], outputs := [], changes := [] } }
  if queue = [] ∧ outputs = [] then w1
  else
    let r := queue.foldl execCmdStep (w1, outputs, changes)
    { r.1 with
      pending := { r.1.pending with outputs := r.2.1, changes := r.2.2 } }

/-- Spec-side definition for the command splitter (from the spec's words,
to be compared with the source translation `split_commands`): the number of
consecutive backslashes immediately preceding index `i`. -/
def trailingBS (input : List Char) (i : Nat) : Nat :=
  ((input.take i).reverse.takeWhile (fun c => c == bslash)).length

/-- Spec-side definition: the double/single quote state holding just before
index `i`, where a quote character toggles its state only when the other
quote kind is closed and the count of immediately preceding backslashes is
even. -/
def quoteStateSpec (input : List Char) : Nat → Bool × Bool
  | 0 => (false, false)
  | i + 1 =>
    let st := quoteStateSpec input i
    match input.get? i with
    | none => st
    | some c =>
      if c = dquote ∧ st.2 = false ∧ trailingBS input i % 2 = 0 then
        (!st.1, st.2)
      else if c = squote ∧ st.1 = false ∧ trailingBS input i % 2 = 0 then
        (st.1, !st.2)
      else st

/-- Spec-side definition: index `i` is a split point when it holds a
semicolon outside quotes. -/
def isSplitPointB (input : List Char) (i : Nat) : Bool :=
  input.get? i == some ';'
    && !(quoteStateSpec input i).1 && !(quoteStateSpec input i).2

/-- Spec-side definition: the split points at indices `≥ i`, in order. -/
def splitPointsFrom (input : List Char) (i : Nat) : List Nat :=
  if i < input.length then
    if isSplitPointB input i then i :: splitPointsFrom input (i + 1)
    else splitPointsFrom input (i + 1)
  else []
  termination_by input.length - i

/-- Spec-side definition: the segments of the input delimited by the given
(sorted) split points, each segment excluding its delimiting semicolons. -/
def chunksAtGo (input : List Char) : Nat → List Nat → List (List Char)
  | start, [] => [input.drop start]
  | start, p :: rest => sliceChars input start p :: chunksAtGo input (p + 1) rest

/-- Spec-side definition of `split_commands`, assembled from the spec's
words: split the input exactly at the semicolons outside quotes (with the
backslash-parity quote tracking above), trim each segment and drop the
empty ones. -/
def splitCommandsSpec (input : List Char) : List (List Char) :=
  ((chunksAtGo input 0 (splitPointsFrom input 0)).map trimChars).filter
    (fun c => c ≠ [])

/-- A handler that always aborts abnormally, used to evaluate the pipeline
on a concrete world. -/
def panicHandler : Handler := fun _ s => (s, some "kaboom")

/-- A concrete world with one registered command `boom` whose stored
handler panics. -/
def boomWorld : World :=
  ⟨⟨Trie.newT,
    [("boom",
      ConEntry.Cmd ⟨"boom", "", ConVarFlags.NONE, PermissionLevel.User⟩)]⟩,
   ⟨[("boom", panicHandler)], []⟩,
   ConsolePermissions.defaultPerms,
   ⟨[], [], [], false⟩⟩

theorem intClamp_boundsOk (v : Int) (mn mx : Option Int)
    (hwf : (match mn, mx with
      | some a, some b => decide (a ≤ b)
      | _, _ => true) = true) :
    boundsOk mn mx (intClamp v mn mx) = true := by
  cases mn with
  | none =>
    cases mx with
    | none => simp [boundsOk, intClamp]
    | some b => simp [boundsOk, intClamp]
  | some a =>
    cases mx with
    | none =>
      simp [boundsOk, intClamp, le_max_right]
    | some b =>
      simp at hwf
      simp [boundsOk, intClamp]
      exact hwf

theorem mapGet_mapInsert_self (m : List (String × β)) (k : String) (v : β) :
    mapGet (mapInsert m k v) k = some v := by
  induction m with
  | nil => simp [mapInsert, mapGet]
  | cons kv rest ih =>
    obtain ⟨k2, v2⟩ := kv
    by_cases h : k2 = k
    · simp [mapInsert, mapGet, h]
    · simp [mapInsert, mapGet, h, ih]

theorem mapGet_mapInsert_ne (m : List (String × β)) (k k' : String) (v : β)
    (h : k' ≠ k) : mapGet (mapInsert m k v) k' = mapGet m k' := by
  induction m with
  | nil => simp [mapInsert, mapGet, Ne.symm h]
  | cons kv rest ih =>
    obtain ⟨k2, v2⟩ := kv
    by_cases h2 : k2 = k
    · subst h2
      simp [mapInsert, mapGet, Ne.symm h]
    · simp [mapInsert, mapGet, h2, ih]

theorem mapGet_mapRemove_ne (m : List (String × β)) (k k' : String)
    (h : k' ≠ k) : mapGet (mapRemove m k).2 k' = mapGet m k' := by
  induction m with
  | nil => simp [mapRemove, mapGet]
  | cons kv rest ih =>
    obtain ⟨k2, v2⟩ := kv
    by_cases h2 : k2 = k
    · subst h2
      simp [mapRemove, mapGet, Ne.symm h]
    · simp [mapRemove, mapGet, h2, ih]

theorem mapRemove_absent (m : List (String × β)) (k : String)
    (h : mapGet m k = none) : (mapRemove m k).2 = m := by
  induction m with
  | nil => simp [mapRemove]
  | cons kv rest ih =>
    obtain ⟨k2, v2⟩ := kv
    by_cases h2 : k2 = k
    · simp [mapGet, h2] at h
    · simp [mapGet, h2] at h
      simp [mapRemove, h2, ih h]

theorem mapRemove_get (m : List (String × β)) (k : String) :
    (mapRemove m k).1 = mapGet m k := by
  induction m with
  | nil => simp [mapRemove, mapGet]
  | cons kv rest ih =>
    obtain ⟨k2, v2⟩ := kv
    by_cases h2 : k2 = k
    · simp [mapRemove, mapGet, h2]
    · simp [mapRemove, mapGet, h2, ih]

theorem stringDataInj {s t : String} (h : s.data = t.data) : s = t :=
  String.ext h

theorem getChild_setChild_self (cs : List (Char × TrieNode V)) (c : Char)
    (n : TrieNode V) : getChild (setChild cs c n) c = some n := by
  induction cs with
  | nil => simp [setChild, getChild]
  | cons dm rest ih =>
    obtain ⟨d, m⟩ := dm
    by_cases h : d = c
    · simp [setChild, getChild, h]
    · simp [setChild, getChild, h, ih]

theorem getChild_setChild_ne (cs : List (Char × TrieNode V)) (c c' : Char)
    (n : TrieNode V) (h : c' ≠ c) :
    getChild (setChild cs c n) c' = getChild cs c' := by
  induction cs with
  | nil => simp [setChild, getChild, Ne.symm h]
  | cons dm rest ih =>
    obtain ⟨d, m⟩ := dm
    by_cases h2 : d = c
    · subst h2
      simp [setChild, getChild, Ne.symm h]
    · simp [setChild, getChild, h2, ih]

theorem getGo_empty (q : List Char) :
    TrieNode.getGo q (TrieNode.empty : TrieNode V) = none := by
  cases q with
  | nil => rfl
  | cons c rest => simp [TrieNode.getGo, TrieNode.empty, TrieNode.children, getChild]

theorem insertGo_getGo_self :
    ∀ (q : List Char) (full : String) (v : V) (node : TrieNode V),
      TrieNode.getGo q (TrieNode.insertGo q full v node).2 = some v := by
  intro q
  induction q with
  | nil =>
    intro full v node
    obtain ⟨cs, val, key⟩ := node
    simp [TrieNode.insertGo, TrieNode.getGo, TrieNode.value]
  | cons c rest ih =>
    intro full v node
    simp only [TrieNode.insertGo, TrieNode.getGo, TrieNode.children,
      getChild_setChild_self]
    exact ih full v _

theorem insertGo_getGo_ne :
    ∀ (q q' : List Char) (full : String) (v : V) (node : TrieNode V),
      q' ≠ q →
      TrieNode.getGo q' (TrieNode.insertGo q full v node).2
        = TrieNode.getGo q' node := by
  intro q
  induction q with
  | nil =>
    intro q' full v node hne
    obtain ⟨cs, val, key⟩ := node
    cases q' with
    | nil => exact absurd rfl hne
    | cons c' r' =>
      simp [TrieNode.insertGo, TrieNode.getGo, TrieNode.children]
  | cons c rest ih =>
    intro q' full v node hne
    obtain ⟨cs, val, key⟩ := node
    cases q' with
    | nil =>
      simp [TrieNode.insertGo, TrieNode.getGo, TrieNode.value]
    | cons c' r' =>
      by_cases hc : c' = c
      · subst hc
        have hr : r' ≠ rest := by
          intro hh
          exact hne (by rw [hh])
        simp only [TrieNode.insertGo, TrieNode.getGo, TrieNode.children,
          getChild_setChild_self]
        rw [ih r' full v _ hr]
        cases hg : getChild cs c' with
        | none => simp [hg, getGo_empty]
        | some child => simp [hg]
      · simp only [TrieNode.insertGo, TrieNode.getGo, TrieNode.children,
          getChild_setChild_ne cs c c' _ hc]

theorem getChild_mem :
    ∀ (cs : List (Char × TrieNode V)) (c : Char) (n : TrieNode V),
      getChild cs c = some n → (c, n) ∈ cs := by
  intro cs
  induction cs with
  | nil => intro c n h; simp [getChild] at h
  | cons dm rest ih =>
    intro c n h
    obtain ⟨d, m⟩ := dm
    by_cases hd : d = c
    · subst hd
      simp [getChild] at h
      simp [h]
    · simp [getChild, hd] at h
      simp [ih c n h]

theorem mem_getChild_of_nodup
    {cs : List (Char × TrieNode V)} {c : Char} {n : TrieNode V}
    (hnd : (cs.map Prod.fst).Nodup) (hmem : (c, n) ∈ cs) :
    getChild cs c = some n := by
  induction cs with
  | nil => simp at hmem
  | cons dm rest ih =>
    obtain ⟨d, m⟩ := dm
    simp only [List.map_cons, List.nodup_cons] at hnd
    rcases List.mem_cons.mp hmem with hh | ht
    · injection hh with h1 h2
      subst h1; subst h2
      simp [getChild]
    · by_cases hd : d = c
      · subst hd
        exact absurd (List.mem_map.mpr ⟨(d, n), ht, rfl⟩) hnd.1
      · simp [getChild, hd]
        exact ih hnd.2 ht

theorem mem_setChild
    {cs : List (Char × TrieNode V)} {c : Char} {n : TrieNode V}
    {x : Char × TrieNode V} (h : x ∈ setChild cs c n) :
    x = (c, n) ∨ x ∈ cs := by
  induction cs with
  | nil => simpa [setChild] using h
  | cons dm rest ih =>
    obtain ⟨d, m⟩ := dm
    by_cases hd : d = c
    · subst hd
      simp [setChild] at h
      rcases h with h | h
      · exact Or.inl (by simp [h])
      · exact Or.inr (by simp [h])
    · simp [setChild, hd] at h
      rcases h with h | h
      · exact Or.inr (by simp [h])
      · rcases ih h with h2 | h2
        · exact Or.inl h2
        · exact Or.inr (by simp [h2])

theorem setChild_keys
    {cs : List (Char × TrieNode V)} {c y : Char} {n : TrieNode V}
    (h : y ∈ (setChild cs c n).map Prod.fst) :
    y = c ∨ y ∈ cs.map Prod.fst := by
  rcases List.mem_map.mp h with ⟨x, hx, hy⟩
  rcases mem_setChild hx with h2 | h2
  · left; rw [← hy, h2]
  · right; exact List.mem_map.mpr ⟨x, h2, hy⟩

theorem setChild_nodup
    {cs : List (Char × TrieNode V)} {c : Char} {n : TrieNode V}
    (hnd : (cs.map Prod.fst).Nodup) :
    ((setChild cs c n).map Prod.fst).Nodup := by
  induction cs with
  | nil => simp [setChild]
  | cons dm rest ih =>
    obtain ⟨d, m⟩ := dm
    simp only [List.map_cons, List.nodup_cons] at hnd
    by_cases hd : d = c
    · subst hd
      have hset : setChild ((d, m) :: rest) d n = (d, n) :: rest := by
        simp [setChild]
      rw [hset]
      simp only [List.map_cons, List.nodup_cons]
      exact ⟨hnd.1, hnd.2⟩
    · simp only [setChild, hd, if_false, List.map_cons, List.nodup_cons]
      refine ⟨?_, ih hnd.2⟩
      intro hmem
      rcases setChild_keys hmem with h2 | h2
      · exact hd h2
      · exact hnd.1 h2

theorem nodeWF_empty (path : List Char) :
    NodeWF path (TrieNode.empty : TrieNode V) := by
  refine NodeWF.mk path [] none none ?_ ?_ ?_
  · intro h; simp at h
  · simp
  · intro c child h; simp at h

theorem insertGo_wf :
    ∀ (q path : List Char) (full : String) (v : V) (node : TrieNode V),
      NodeWF path node → path ++ q = full.data →
      NodeWF path (TrieNode.insertGo q full v node).2 := by
  intro q
  induction q with
  | nil =>
    intro path full v node hwf hpath
    obtain ⟨cs, val, key⟩ := node
    cases hwf with
    | mk _ _ _ _ hkey hnd hch =>
      simp only [TrieNode.insertGo]
      refine NodeWF.mk path cs (some v) (some full) ?_ hnd hch
      intro _
      exact ⟨full, rfl, by simpa using hpath.symm⟩
  | cons c rest ih =>
    intro path full v node hwf hpath
    obtain ⟨cs, val, key⟩ := node
    cases hwf with
    | mk _ _ _ _ hkey hnd hch =>
      simp only [TrieNode.insertGo, TrieNode.children, TrieNode.value,
        TrieNode.keyOf]
      refine NodeWF.mk path _ val key hkey (setChild_nodup hnd) ?_
      intro c' child' hmem
      rcases mem_setChild hmem with heq | hold
      · injection heq with h1 h2
        subst h2
        rw [h1]
        have hchildWF : NodeWF (path ++ [c])
            ((getChild cs c).getD TrieNode.empty) := by
          cases hg : getChild cs c with
          | none => simpa [hg] using nodeWF_empty (V := V) (path ++ [c])
          | some ch =>
            simpa [hg] using hch c ch (getChild_mem cs c ch hg)
        have hpath2 : (path ++ [c]) ++ rest = full.data := by
          simpa [List.append_assoc] using hpath
        exact ih (path ++ [c]) full v _ hchildWF hpath2
      · exact hch c' child' hold

theorem mem_nodeEntry {key : Option String} {val : Option V} {k : String}
    {v : V} :
    (k, v) ∈ nodeEntry key val ↔ key = some k ∧ val = some v := by
  cases key <;> cases val <;> simp [nodeEntry] <;> try exact fun h => h.symm
  constructor
  · intro ⟨h1, h2⟩
    exact ⟨h1.symm, h2.symm⟩
  · intro ⟨h1, h2⟩
    exact ⟨h1.symm, h2.symm⟩

theorem collect_spec :
    ∀ (m : Nat) (node : TrieNode V), sizeOf node ≤ m →
      ∀ (path : List Char), NodeWF path node →
      ∀ (k : String) (v : V),
        ((k, v) ∈ TrieNode.collect node
          ↔ ∃ q, k.data = path ++ q ∧ TrieNode.getGo q node = some v) := by
  intro m
  induction m with
  | zero =>
    intro node hsz
    obtain ⟨cs, val, key⟩ := node
    simp at hsz
  | succ m ih =>
    intro node hsz path hwf k v
    obtain ⟨cs, val, key⟩ := node
    cases hwf with
    | mk _ _ _ _ hkey hnd hch =>
      rw [TrieNode.collect]
      constructor
      · intro hmem
        rcases List.mem_append.mp hmem with hhead | htail
        · rcases mem_nodeEntry.mp hhead with ⟨hks, hval⟩
          obtain ⟨s, hks2, hsd⟩ := hkey (by simp [hval])
          refine ⟨[], ?_, ?_⟩
          · have hsk : s = k := by
              rw [hks] at hks2
              injection hks2 with h
              exact h.symm
            rw [← hsk, hsd]
            simp
          · simp [TrieNode.getGo, TrieNode.value, hval]
        · rcases List.mem_flatMap.mp htail with ⟨x, _, hmem2⟩
          obtain ⟨⟨c, child⟩, hcs⟩ := x
          have hszc : sizeOf child ≤ m := by
            have := List.sizeOf_lt_of_mem hcs
            simp at hsz this ⊢
            omega
          rcases (ih child hszc (path ++ [c]) (hch c child hcs) k v).mp hmem2
            with ⟨q, hk, hget⟩
          refine ⟨c :: q, by simpa [List.append_assoc] using hk, ?_⟩
          simp [TrieNode.getGo, TrieNode.children,
            mem_getChild_of_nodup hnd hcs, hget]
      · rintro ⟨q, hk, hget⟩
        cases q with
        | nil =>
          have hval : val = some v := by
            simpa [TrieNode.getGo, TrieNode.value] using hget
          obtain ⟨s, hks, hsd⟩ := hkey (by simp [hval])
          apply List.mem_append.mpr
          left
          have hk2 : k = s := by
            refine stringDataInj ?_
            rw [hk, hsd]
            simp
          exact mem_nodeEntry.mpr ⟨by rw [hks, hk2], hval⟩
        | cons c q' =>
          simp only [TrieNode.getGo, TrieNode.children] at hget
          cases hg : getChild cs c with
          | none => simp [hg] at hget
          | some child =>
            simp only [hg] at hget
            have hcs := getChild_mem cs c child hg
            have hszc : sizeOf child ≤ m := by
              have := List.sizeOf_lt_of_mem hcs
              simp at hsz this ⊢
              omega
            have hmem2 := (ih child hszc (path ++ [c]) (hch c child hcs)
              k v).mpr ⟨q', by simpa [List.append_assoc] using hk, hget⟩
            apply List.mem_append.mpr
            right
            exact List.mem_flatMap.mpr
              ⟨⟨(c, child), hcs⟩, List.mem_attach _ _, hmem2⟩

theorem descend_getGo_some :
    ∀ (p : List Char) (node nd : TrieNode V),
      TrieNode.descend p node = some nd →
      ∀ q, TrieNode.getGo q nd = TrieNode.getGo (p ++ q) node := by
  intro p
  induction p with
  | nil =>
    intro node nd h q
    simp [TrieNode.descend] at h
    rw [h]
    simp
  | cons c rest ih =>
    intro node nd h q
    simp only [TrieNode.descend] at h
    cases hg : getChild node.children c with
    | none => simp [hg] at h
    | some child =>
      simp only [hg] at h
      obtain ⟨cs, val, key⟩ := node
      simp only [TrieNode.children] at hg
      simp only [List.cons_append, TrieNode.getGo, TrieNode.children, hg]
      exact ih child nd h q

theorem descend_none :
    ∀ (p : List Char) (node : TrieNode V),
      TrieNode.descend p node = none →
      ∀ q, TrieNode.getGo (p ++ q) node = none := by
  intro p
  induction p with
  | nil =>
    intro node h q
    simp [TrieNode.descend] at h
  | cons c rest ih =>
    intro node h q
    simp only [TrieNode.descend] at h
    obtain ⟨cs, val, key⟩ := node
    simp only [TrieNode.children] at h
    cases hg : getChild cs c with
    | none => simp [List.cons_append, TrieNode.getGo, TrieNode.children, hg]
    | some child =>
      simp only [hg] at h
      simp only [List.cons_append, TrieNode.getGo, TrieNode.children, hg]
      exact ih child h q

theorem descend_wf :
    ∀ (p path : List Char) (node nd : TrieNode V),
      NodeWF path node → TrieNode.descend p node = some nd →
      NodeWF (path ++ p) nd := by
  intro p
  induction p with
  | nil =>
    intro path node nd hwf h
    simp [TrieNode.descend] at h
    rw [← h]
    simpa using hwf
  | cons c rest ih =>
    intro path node nd hwf h
    obtain ⟨cs, val, key⟩ := node
    simp only [TrieNode.descend, TrieNode.children] at h
    cases hg : getChild cs c with
    | none => simp [hg] at h
    | some child =>
      simp only [hg] at h
      cases hwf with
      | mk _ _ _ _ hkey hnd hch =>
        have hwfc := hch c child (getChild_mem cs c child hg)
        have := ih (path ++ [c]) child nd hwfc h
        simpa [List.append_assoc] using this

theorem triePrefixIter_spec (t : Trie V) (hwf : NodeWF [] t.root)
    (p k : String) (v : V) :
    (k, v) ∈ t.prefixIter p
      ↔ p.data.isPrefixOf k.data = true ∧ t.get k = some v := by
  unfold Trie.prefixIter Trie.get
  cases hd : TrieNode.descend p.data t.root with
  | none =>
    simp only [List.not_mem_nil, false_iff, not_and]
    intro hpre
    rcases List.isPrefixOf_iff_prefix.mp hpre with ⟨q, hq⟩
    rw [← hq, descend_none p.data t.root hd q]
    simp
  | some nd =>
    have hwfnd : NodeWF p.data nd := by
      simpa using descend_wf p.data [] t.root nd hwf hd
    rw [collect_spec (sizeOf nd) nd le_rfl p.data hwfnd k v]
    constructor
    · rintro ⟨q, hk, hget⟩
      refine ⟨List.isPrefixOf_iff_prefix.mpr ⟨q, hk.symm⟩, ?_⟩
      rw [hk, ← descend_getGo_some p.data t.root nd hd q]
      exact hget
    · rintro ⟨hpre, hget⟩
      rcases List.isPrefixOf_iff_prefix.mp hpre with ⟨q, hq⟩
      refine ⟨q, hq.symm, ?_⟩
      rw [descend_getGo_some p.data t.root nd hd q, hq]
      exact hget

theorem regInv_new : RegInv ConsoleRegistry.newR := by
  constructor
  · exact nodeWF_empty []
  · intro n
    simp [Trie.get, Trie.newT, ConsoleRegistry.newR, getGo_empty, mapGet]

theorem regInv_insert (r : ConsoleRegistry) (name : String) (e : ConEntry)
    (h : RegInv r) :
    RegInv ⟨(r.trie.insert name ()).2, mapInsert r.entries name e⟩ := by
  obtain ⟨hwf, hag⟩ := h
  constructor
  · exact insertGo_wf name.data [] name () r.trie.root hwf (by simp)
  · intro n
    by_cases hn : n = name
    · subst hn
      simp [Trie.get, Trie.insert, insertGo_getGo_self,
        mapGet_mapInsert_self]
    · have hdata : n.data ≠ name.data := fun hh => hn (stringDataInj hh)
      simp only [Trie.get, Trie.insert]
      rw [insertGo_getGo_ne name.data n.data name () r.trie.root hdata,
        mapGet_mapInsert_ne r.entries name n e hn]
      exact hag n

theorem regInv_applyRegOp (r : ConsoleRegistry) (op : RegOp)
    (h : RegInv r) : RegInv (applyRegOp r op) := by
  cases op with
  | regVar d =>
    exact regInv_insert r d.nameD
      (ConEntry.Var (ConVarMeta.from_convar d)) h
  | regCmdMeta m =>
    exact regInv_insert r m.name (ConEntry.Cmd m) h
  | regCmd c =>
    exact regInv_insert r c.meta.name (ConEntry.Cmd c.meta) h

theorem regInv_foldl :
    ∀ (ops : List RegOp) (r : ConsoleRegistry), RegInv r →
      RegInv (ops.foldl applyRegOp r) := by
  intro ops
  induction ops with
  | nil => intro r h; exact h
  | cons op rest ih =>
    intro r h
    exact ih (applyRegOp r op) (regInv_applyRegOp r op h)

theorem regInv_ofOps (ops : List RegOp) : RegInv (registryOfOps ops) :=
  regInv_foldl ops ConsoleRegistry.newR regInv_new

theorem trailingBS_succ (input : List Char) (i : Nat) (c : Char)
    (hget : input.get? i = some c) :
    trailingBS input (i + 1)
      = if c = bslash then trailingBS input i + 1 else 0 := by
  unfold trailingBS
  have hg2 : input[i]? = some c := by rw [← List.get?_eq_getElem?]; exact hget
  rw [List.take_succ, hg2]
  simp only [Option.toList_some, List.reverse_append, List.reverse_cons,
    List.reverse_nil, List.nil_append, List.singleton_append,
    List.takeWhile_cons]
  by_cases hc : c = bslash
  · simp [hc]
  · have hcb : (c == bslash) = false := by simp [hc]
    simp [hc, hcb]

theorem quoteStateSpec_succ (input : List Char) (i : Nat) (c : Char)
    (hget : input.get? i = some c) :
    quoteStateSpec input (i + 1)
      = (if c = dquote ∧ (quoteStateSpec input i).2 = false
              ∧ trailingBS input i % 2 = 0 then
           (!(quoteStateSpec input i).1, (quoteStateSpec input i).2)
         else if c = squote ∧ (quoteStateSpec input i).1 = false
              ∧ trailingBS input i % 2 = 0 then
           ((quoteStateSpec input i).1, !(quoteStateSpec input i).2)
         else quoteStateSpec input i) := by
  rw [quoteStateSpec, hget]

theorem splitPointsFrom_ge (input : List Char) (i : Nat)
    (h : input.length ≤ i) : splitPointsFrom input i = [] := by
  rw [splitPointsFrom]
  simp [Nat.not_lt.mpr h]

theorem splitPointsFrom_lt (input : List Char) (i : Nat)
    (h : i < input.length) :
    splitPointsFrom input i
      = if isSplitPointB input i then i :: splitPointsFrom input (i + 1)
        else splitPointsFrom input (i + 1) := by
  rw [splitPointsFrom]
  simp [h]

theorem isSplitPointB_false_of_ne (input : List Char) (i : Nat) (c : Char)
    (hget : input.get? i = some c) (hne : c ≠ (';' : Char)) :
    isSplitPointB input i = false := by
  have hg2 : input[i]? = some c := by
    rw [← List.get?_eq_getElem?]
    exact hget
  simp [isSplitPointB, hg2, hne]

theorem splitGo_spec (input : List Char) :
    ∀ (rest : List Char) (i start : Nat) (inDq inSq : Bool) (bs : Nat)
      (acc : List (List Char)),
      rest = input.drop i →
      bs = trailingBS input i →
      (inDq, inSq) = quoteStateSpec input i →
      splitGo input rest i start inDq inSq bs acc
        = acc ++ ((chunksAtGo input start (splitPointsFrom input i)).map
            trimChars).filter (fun x => x ≠ []) := by
  intro rest
  induction rest with
  | nil =>
    intro i start inDq inSq bs acc hrest hbs hst
    have hlen : input.length ≤ i := by
      have h0 := congrArg List.length hrest
      simp [List.length_drop] at h0
      omega
    rw [splitPointsFrom_ge input i hlen]
    simp only [splitGo, chunksAtGo]
    by_cases hc : trimChars (input.drop start) = []
    · simp [hc]
    · simp [hc]
  | cons c rest2 ih =>
    intro i start inDq inSq bs acc hrest hbs hst
    have hget : input.get? i = some c := by
      have h0 : (input.drop i).get? 0 = some c := by rw [← hrest]; rfl
      rw [List.get?_drop] at h0
      simpa using h0
    have hlt : i < input.length := by
      by_contra h
      push_neg at h
      rw [List.drop_eq_nil_of_le h] at hrest
      simp at hrest
    have hrest2 : rest2 = input.drop (i + 1) := by
      have h1 : (input.drop i).drop 1 = input.drop (i + 1) := by
        rw [List.drop_drop]
      rw [← h1, ← hrest]
      rfl
    have htb := trailingBS_succ input i c hget
    have hqs := quoteStateSpec_succ input i c hget
    have hst1 : (quoteStateSpec input i).1 = inDq := by rw [← hst]
    have hst2 : (quoteStateSpec input i).2 = inSq := by rw [← hst]
    simp only [splitGo]
    by_cases hbsl : (c == bslash) = true
    · rw [if_pos hbsl]
      have hceq : c = bslash := by simpa using hbsl
      have hnd : ¬(c = dquote ∧ (quoteStateSpec input i).2 = false
          ∧ trailingBS input i % 2 = 0) := by
        rintro ⟨h1, -⟩
        rw [hceq] at h1
        exact absurd h1 (by decide)
      have hns : ¬(c = squote ∧ (quoteStateSpec input i).1 = false
          ∧ trailingBS input i % 2 = 0) := by
        rintro ⟨h1, -⟩
        rw [hceq] at h1
        exact absurd h1 (by decide)
      have hq1 : (inDq, inSq) = quoteStateSpec input (i + 1) := by
        rw [hqs, if_neg hnd, if_neg hns]
        exact hst
      have hb1 : bs + 1 = trailingBS input (i + 1) := by
        rw [htb, if_pos hceq, hbs]
      rw [ih (i + 1) start inDq inSq (bs + 1) acc hrest2 hb1 hq1]
      have hnsp : isSplitPointB input i = false :=
        isSplitPointB_false_of_ne input i c hget (by rw [hceq]; decide)
      rw [splitPointsFrom_lt input i hlt, if_neg (by simp [hnsp])]
    · rw [if_neg hbsl]
      have hcnb : c ≠ bslash := by simpa using hbsl
      have hb1 : (0 : Nat) = trailingBS input (i + 1) := by
        rw [htb, if_neg hcnb]
      by_cases hdq : (c == dquote) = true ∧ inSq = false
      · rw [if_pos hdq]
        have hcd : c = dquote := by simpa using hdq.1
        have hq1 : ((if bs % 2 == 0 then !inDq else inDq), inSq)
            = quoteStateSpec input (i + 1) := by
          rw [hqs]
          by_cases hpar : trailingBS input i % 2 = 0
          · have hcond : c = dquote ∧ (quoteStateSpec input i).2 = false
                ∧ trailingBS input i % 2 = 0 := by
              refine ⟨hcd, ?_, hpar⟩
              rw [hst2]
              exact hdq.2
            have hb2 : (bs % 2 == 0) = true := by
              rw [hbs]; simpa using hpar
            rw [if_pos hcond, hst1, hst2, hb2]
            simp
          · have hnd : ¬(c = dquote ∧ (quoteStateSpec input i).2 = false
                ∧ trailingBS input i % 2 = 0) := by
              rintro ⟨-, -, hp⟩
              exact hpar hp
            have hns : ¬(c = squote ∧ (quoteStateSpec input i).1 = false
                ∧ trailingBS input i % 2 = 0) := by
              rintro ⟨h1, -⟩
              rw [hcd] at h1
              exact absurd h1 (by decide)
            have hb2 : (bs % 2 == 0) = false := by
              rw [hbs]
              exact beq_eq_false_iff_ne.mpr hpar
            rw [if_neg hnd, if_neg hns, hb2]
            simp only [Bool.false_eq_true, if_false]
            exact hst
        rw [ih (i + 1) start _ inSq 0 acc hrest2 hb1 hq1]
        have hnsp : isSplitPointB input i = false :=
          isSplitPointB_false_of_ne input i c hget (by rw [hcd]; decide)
        rw [splitPointsFrom_lt input i hlt, if_neg (by simp [hnsp])]
      · rw [if_neg hdq]
        by_cases hsq : (c == squote) = true ∧ inDq = false
        · rw [if_pos hsq]
          have hcs : c = squote := by simpa using hsq.1
          have hnd : ¬(c = dquote ∧ (quoteStateSpec input i).2 = false
              ∧ trailingBS input i % 2 = 0) := by
            rintro ⟨h1, -⟩
            rw [hcs] at h1
            exact absurd h1 (by decide)
          have hq1 : (inDq, (if bs % 2 == 0 then !inSq else inSq))
              = quoteStateSpec input (i + 1) := by
            rw [hqs]
            by_cases hpar : trailingBS input i % 2 = 0
            · have hcond : c = squote ∧ (quoteStateSpec input i).1 = false
                  ∧ trailingBS input i % 2 = 0 := by
                refine ⟨hcs, ?_, hpar⟩
                rw [hst1]
                exact hsq.2
              have hb2 : (bs % 2 == 0) = true := by
                rw [hbs]; simpa using hpar
              rw [if_neg hnd, if_pos hcond, hst1, hst2, hb2]
              simp
            · have hns : ¬(c = squote ∧ (quoteStateSpec input i).1 = false
                  ∧ trailingBS input i % 2 = 0) := by
                rintro ⟨-, -, hp⟩
                exact hpar hp
              have hb2 : (bs % 2 == 0) = false := by
                rw [hbs]
                exact beq_eq_false_iff_ne.mpr hpar
              rw [if_neg hnd, if_neg hns, hb2]
              simp only [Bool.false_eq_true, if_false]
              exact hst
          rw [ih (i + 1) start inDq _ 0 acc hrest2 hb1 hq1]
          have hnsp : isSplitPointB input i = false :=
            isSplitPointB_false_of_ne input i c hget (by rw [hcs]; decide)
          rw [splitPointsFrom_lt input i hlt, if_neg (by simp [hnsp])]
        · rw [if_neg hsq]
          have hnd : ¬(c = dquote ∧ (quoteStateSpec input i).2 = false
              ∧ trailingBS input i % 2 = 0) := by
            rintro ⟨h1, h2, -⟩
            rw [hst2] at h2
            exact hdq ⟨by simp [h1], h2⟩
          have hns : ¬(c = squote ∧ (quoteStateSpec input i).1 = false
              ∧ trailingBS input i % 2 = 0) := by
            rintro ⟨h1, h2, -⟩
            rw [hst1] at h2
            exact hsq ⟨by simp [h1], h2⟩
          have hqstay : (inDq, inSq) = quoteStateSpec input (i + 1) := by
            rw [hqs, if_neg hnd, if_neg hns]
            exact hst
          by_cases hsemi : (c == ';') = true ∧ inDq = false ∧ inSq = false
          · rw [if_pos hsemi]
            have hsp : isSplitPointB input i = true := by
              have hg2 : input[i]? = some c := by
                rw [← List.get?_eq_getElem?]
                exact hget
              simp only [isSplitPointB, List.get?_eq_getElem?, hg2, hst1,
                hst2, hsemi.2.1, hsemi.2.2]
              simpa using hsemi.1
            rw [ih (i + 1) (i + 1) inDq inSq 0 _ hrest2 hb1 hqstay]
            rw [splitPointsFrom_lt input i hlt, if_pos hsp]
            simp only [chunksAtGo, List.map_cons, List.filter_cons]
            by_cases hc2 : trimChars (sliceChars input start i) = []
            · simp [hc2]
            · simp [hc2]
          · rw [if_neg hsemi]
            have hnsp : isSplitPointB input i = false := by
              by_cases hcsemi : (c == ';') = true
              · have hg2 : input[i]? = some c := by
                  rw [← List.get?_eq_getElem?]
                  exact hget
                simp only [isSplitPointB, List.get?_eq_getElem?, hg2, hst1,
                  hst2]
                cases hin1 : inDq with
                | true => simp
                | false =>
                  cases hin2 : inSq with
                  | true => simp
                  | false => exact absurd ⟨hcsemi, hin1, hin2⟩ hsemi
              · exact isSplitPointB_false_of_ne input i c hget
                  (by simpa using hcsemi)
            rw [ih (i + 1) start inDq inSq 0 acc hrest2 hb1 hqstay]
            rw [splitPointsFrom_lt input i hlt, if_neg (by simp [hnsp])]

theorem runCommandBranch_spec (w : World) (cmd : QueuedCommand)
    (o : List OutputEvent) (h : Handler)
    (hhand : mapGet w.handlers.handlers cmd.name = some h) :
    runCommandBranch w cmd o
      = (⟨(h ⟨cmd.raw, cmd.args⟩ w.sub).1.registry,
          ⟨mapInsert (mapRemove w.handlers.handlers cmd.name).2 cmd.name h,
            w.handlers.autocomplete⟩,
          (h ⟨cmd.raw, cmd.args⟩ w.sub).1.perms,
          (h ⟨cmd.raw, cmd.args⟩ w.sub).1.pending⟩,
         o ++ match (h ⟨cmd.raw, cmd.args⟩ w.sub).2 with
           | some m =>
              [OutputEvent.errorE
                ("Command '" ++ cmd.name ++ "' panicked: " ++ m)]
           | none => []) := by
  have hmap : (mapRemove w.handlers.handlers cmd.name).1 = some h := by
    rw [mapRemove_get]; exact hhand
  cases hres : (h ⟨cmd.raw, cmd.args⟩ w.sub).2 with
  | none =>
    simp [runCommandBranch, hmap, hres, CommandHandlers.take,
      CommandHandlers.put]
  | some m =>
    simp [runCommandBranch, hmap, hres, CommandHandlers.take,
      CommandHandlers.put]

theorem execCmdStep_handlers_mem
    (st : World × List OutputEvent × List ChangeEvent)
    (cmd : QueuedCommand) (n : String) :
    mapContainsKey (execCmdStep st cmd).1.handlers.handlers n
      = mapContainsKey st.1.handlers.handlers n := by
  obtain ⟨w, o, c⟩ := st
  cases hent : w.registry.get_entry cmd.name with
  | none => simp [execCmdStep, hent]
  | some e =>
    cases e with
    | Var meta =>
      by_cases hargs : cmd.args = []
      · simp [execCmdStep, hent, hargs]
      · cases hacc : check_access w meta.flags meta.required_permission with
        | error msg => simp [execCmdStep, hent, hargs, hacc]
        | ok u =>
          simp only [execCmdStep, hent, hargs, hacc]
          simp only [runVarSetBranch, hent]
          by_cases hset :
              (meta.setStringM (String.intercalate " " cmd.args)).1 = true <;>
            simp [hset]
    | Cmd meta =>
      cases hacc : check_access w meta.flags meta.required_permission with
      | error msg => simp [execCmdStep, hent, hacc]
      | ok u =>
        simp only [execCmdStep, hent, hacc]
        cases htk : mapGet w.handlers.handlers cmd.name with
        | none =>
          have habs := mapRemove_absent w.handlers.handlers cmd.name htk
          have hm1 : (mapRemove w.handlers.handlers cmd.name).1 = none := by
            rw [mapRemove_get]; exact htk
          simp [runCommandBranch, hm1, CommandHandlers.take, habs]
        | some hh =>
          rw [runCommandBranch_spec w cmd o hh htk]
          by_cases hn : n = cmd.name
          · subst hn
            simp [mapContainsKey, mapGet_mapInsert_self, htk]
          · simp [mapContainsKey, mapGet_mapInsert_ne _ _ _ _ hn,
              mapGet_mapRemove_ne _ _ _ hn]

theorem foldl_execCmdStep_handlers_mem (q : List QueuedCommand)
    (st : World × List OutputEvent × List ChangeEvent) (n : String) :
    mapContainsKey ((q.foldl execCmdStep st).1).handlers.handlers n
      = mapContainsKey st.1.handlers.handlers n := by
  induction q generalizing st with
  | nil => rfl
  | cons cmd rest ih =>
    rw [List.foldl_cons, ih, execCmdStep_handlers_mem]

/-- C1: during Resolve & Execute, a queued invocation that resolves to a
command, passes the access gate and has a stored handler `h` ends with `h`
back in the handler store under the same name; the store's key set is
unchanged; the rest of the world is exactly the result of one application
of `h`; a panic is converted into an error output naming the command and
the message, and the change list is untouched. Moreover every step of the
pipeline preserves the handler store's key set, a whole
`execute_pending_commands` pass preserves it, and the queue fold is
compositional (processing `q1 ++ q2` continues into `q2` after `q1`, so a
panic inside `q1` never aborts the batch). -/
theorem pipeline_take_put_panic_isolation :
    (∀ (w : World) (cmd : QueuedCommand) (o : List OutputEvent)
        (c : List ChangeEvent) (meta : ConCommandMeta) (h : Handler),
      w.registry.get_entry cmd.name = some (ConEntry.Cmd meta) →
      check_access w meta.flags meta.required_permission = Except.ok () →
      mapGet w.handlers.handlers cmd.name = some h →
        mapGet (execCmdStep (w, o, c) cmd).1.handlers.handlers cmd.name
            = some h
        ∧ (∀ n,
            mapContainsKey (execCmdStep (w, o, c) cmd).1.handlers.handlers n
              = mapContainsKey w.handlers.handlers n)
        ∧ (execCmdStep (w, o, c) cmd).1.registry
            = (h ⟨cmd.raw, cmd.args⟩ w.sub).1.registry
        ∧ (execCmdStep (w, o, c) cmd).1.perms
            = (h ⟨cmd.raw, cmd.args⟩ w.sub).1.perms
        ∧ (execCmdStep (w, o, c) cmd).1.pending
            = (h ⟨cmd.raw, cmd.args⟩ w.sub).1.pending
        ∧ (execCmdStep (w, o, c) cmd).2.2 = c
        ∧ (execCmdStep (w, o, c) cmd).2.1
            = o ++ match (h ⟨cmd.raw, cmd.args⟩ w.sub).2 with
                | some m =>
                    [OutputEvent.errorE
                      ("Command '" ++ cmd.name ++ "' panicked: " ++ m)]
                | none => [])
    ∧ (∀ (st : World × List OutputEvent × List ChangeEvent)
        (cmd : QueuedCommand) (n : String),
        mapContainsKey (execCmdStep st cmd).1.handlers.handlers n
          = mapContainsKey st.1.handlers.handlers n)
    ∧ (∀ (w : World) (n : String),
        mapContainsKey (execute_pending_commands w).handlers.handlers n
          = mapContainsKey w.handlers.handlers n)
    ∧ (∀ (st : World × List OutputEvent × List ChangeEvent)
        (q1 q2 : List QueuedCommand),
        (q1 ++ q2).foldl execCmdStep st
          = q2.foldl execCmdStep (q1.foldl execCmdStep st)) := by
  refine ⟨?_, execCmdStep_handlers_mem, ?_, ?_⟩
  · intro w cmd o c meta h hentry hgate hhand
    have hstep : execCmdStep (w, o, c) cmd
        = ((runCommandBranch w cmd o).1, (runCommandBranch w cmd o).2, c) := by
      simp [execCmdStep, hentry, hgate]
    have hmem := fun n => execCmdStep_handlers_mem (w, o, c) cmd n
    simp only [hstep, runCommandBranch_spec w cmd o h hhand] at hmem ⊢
    refine ⟨mapGet_mapInsert_self _ _ _, hmem, ?_, ?_, ?_, ?_, ?_⟩ <;> trivial
  · intro w n
    unfold execute_pending_commands
    by_cases hq : w.pending.queue = [] ∧ w.pending.outputs = []
    · simp [hq]
    · simp only [hq, if_false]
      rw [foldl_execCmdStep_handlers_mem]
  · intro st q1 q2
    exact List.foldl_append _ _ _ _

/-- C1 (witness): in the concrete world with the panicking handler of
`boom`, one pipeline step leaves the handler stored under `boom` and emits
the panic error output. -/
theorem pipeline_take_put_panic_isolation_witness :
    mapGet (execCmdStep (boomWorld, [], [])
        ⟨"boom", "boom", []⟩).1.handlers.handlers "boom" = some panicHandler
    ∧ (execCmdStep (boomWorld, [], []) ⟨"boom", "boom", []⟩).2.1
        = [OutputEvent.errorE "Command 'boom' panicked: kaboom"] := by
  have H := pipeline_take_put_panic_isolation.1 boomWorld
    ⟨"boom", "boom", []⟩ [] []
    ⟨"boom", "", ConVarFlags.NONE, PermissionLevel.User⟩ panicHandler
    (by decide) (by decide) rfl
  exact ⟨H.1, by rw [H.2.2.2.2.2.2]; rfl⟩

/-- C2 (counterexample): the claimed invariant fails as stated. For
`ConVar::new("sv_rate", 5).min(10).max(20)` the builder clamps the current
value to 10 but leaves the default at 5, so `reset` restores 5, outside
`[10, 20]`; and `ConVar::new("sv_crossed", 0).min(10).max(5)` ends
construction with value 5, below its own min bound 10. -/
theorem convar_bounds_claim_counterexample :
    (ConVar.reset
        (ConVar.withMax i32Impl
          (ConVar.withMin i32Impl (ConVar.new "sv_rate" (5 : Int)) 10) 20)).min
        = some 10
    ∧ (ConVar.reset
        (ConVar.withMax i32Impl
          (ConVar.withMin i32Impl (ConVar.new "sv_rate" (5 : Int)) 10) 20)).max
        = some 20
    ∧ (ConVar.reset
        (ConVar.withMax i32Impl
          (ConVar.withMin i32Impl (ConVar.new "sv_rate" (5 : Int)) 10) 20)).value
        = 5
    ∧ inBoundsInt
        (ConVar.reset
          (ConVar.withMax i32Impl
            (ConVar.withMin i32Impl (ConVar.new "sv_rate" (5 : Int)) 10) 20))
        = false
    ∧ inBoundsInt
        (ConVar.withMax i32Impl
          (ConVar.withMin i32Impl (ConVar.new "sv_crossed" (0 : Int)) 10) 5)
        = false := by decide

/-- C2 (amended): for an integer variable, construction (`new`) starts in
bounds, and every operation among set, set_string, min, max leaves the
stored value within the declared bounds provided the resulting bounds are
not crossed (`min ≤ max` when both set); `reset` preserves the invariant
provided the default value lies within the bounds. -/
theorem convar_bounds_invariant_amended :
    (∀ (n : String) (d : Int), inBoundsInt (ConVar.new n d) = true)
    ∧ ∀ (impl : ConVarValueImpl Int), impl.clampV = intClamp →
        ∀ (cv : ConVar Int) (op : VarOp Int),
          inBoundsInt cv = true →
          wfBoundsInt (applyVarOp impl cv op) = true →
          (op = VarOp.resetOp → defaultInBoundsInt cv = true) →
          inBoundsInt (applyVarOp impl cv op) = true := by
  constructor
  · intro n d
    simp [inBoundsInt, ConVar.new, boundsOk]
  · intro impl hcl cv op hin hwf hres
    cases op with
    | setOp v =>
      simp only [applyVarOp, ConVar.set] at hwf ⊢
      by_cases hro : cv.flags.contains ConVarFlags.READ_ONLY = true
      · simpa [hro] using hin
      · simp only [hro, if_false, Bool.false_eq_true] at hwf ⊢
        simp only [inBoundsInt, wfBoundsInt] at hwf ⊢
        simp only [hcl]
        exact intClamp_boundsOk v cv.min cv.max hwf
    | setStringOp s =>
      simp only [applyVarOp, ConVar.set_string] at hwf ⊢
      by_cases hro : cv.flags.contains ConVarFlags.READ_ONLY = true
      · simpa [hro] using hin
      · simp only [hro, if_false, Bool.false_eq_true] at hwf ⊢
        cases hp : impl.parseV s with
        | none => simpa [hp] using hin
        | some v =>
          simp only [hp] at hwf ⊢
          simp only [inBoundsInt, wfBoundsInt] at hwf ⊢
          simp only [hcl]
          exact intClamp_boundsOk v cv.min cv.max hwf
    | resetOp =>
      simp only [applyVarOp, ConVar.reset] at hwf ⊢
      by_cases hro : cv.flags.contains ConVarFlags.READ_ONLY = true
      · simpa [hro] using hin
      · simp only [hro, if_false, Bool.false_eq_true]
        have hd := hres rfl
        simpa [inBoundsInt, defaultInBoundsInt] using hd
    | minOp m =>
      simp only [applyVarOp, ConVar.withMin] at hwf ⊢
      simp only [inBoundsInt, wfBoundsInt] at hwf ⊢
      simp only [hcl]
      exact intClamp_boundsOk cv.value (some m) cv.max hwf
    | maxOp m =>
      simp only [applyVarOp, ConVar.withMax] at hwf ⊢
      simp only [inBoundsInt, wfBoundsInt] at hwf ⊢
      simp only [hcl]
      exact intClamp_boundsOk cv.value cv.min (some m) hwf

/-- C2 (witness): the amended invariant applied to
`ConVar::new("cl_fov", 90).min(60).max(120)` and `set(150)`: the stored
value stays within `[60, 120]`. -/
theorem convar_bounds_invariant_amended_witness :
    inBoundsInt
      (applyVarOp i32Impl
        (ConVar.withMax i32Impl
          (ConVar.withMin i32Impl (ConVar.new "cl_fov" (90 : Int)) 60) 120)
        (VarOp.setOp 150)) = true :=
  convar_bounds_invariant_amended.2 i32Impl rfl _ _ (by decide) (by decide)
    (by decide)

/-- C4 (code divergence): `tokenize` strips from the first two-slash
sequence even inside quotes — `tokenize("say \"a//b\"")` truncates inside
the quoted argument and reports `UnterminatedString` at the quote's opening
index 4, where the claim (and the function's own documentation, which
allows comments only at token boundaries) expects the argument `a//b`. The
empty-input behaviour the claim also states does hold. -/
theorem tokenize_comment_strips_inside_quotes :
    tokenize "say \"a//b\"".data
      = Except.error (TokenizeError.UnterminatedString 4)
    ∧ tokenize "".data = Except.error TokenizeError.EmptyInput
    ∧ tokenize "   ".data = Except.error TokenizeError.EmptyInput := by
  refine ⟨?_, by decide, by decide⟩
  simp +decide [tokenize, tokenize_string, tokenizeLoop, quotedScan, regScan,
    trimChars, findSub, sliceChars, isWsChar, dquote, squote, bslash]

/-- C5 (counterexample): `subsequence_match("svg", "sv_gravity")` does not
match at indices `[0, 3, 4]` — the pattern characters s, v, g match at
0, 1, 3 (the claim's indices belong to the pattern "sgr"). -/
theorem subsequence_match_svg_claim_false :
    ¬ (Option.map MatchResult.indices
        (subsequence_match "svg".data "sv_gravity".data) = some [0, 3, 4]) := by
  decide

/-- C5 (amended): `subsequence_match("svg", "sv_gravity")` matches with
matched indices exactly `[0, 1, 3]` (score 23). -/
theorem subsequence_match_svg_indices :
    subsequence_match "svg".data "sv_gravity".data
      = some { score := 23, indices := [0, 1, 3] } := by decide

/-- C6: `split_commands` equals, on every input, the spec-side splitter
that cuts exactly at the semicolons outside quotes under the
backslash-parity quote tracking (so a semicolon inside a quoted run is
never a cut point and stays within its sub-line); and the concrete
examples, including the multi-backslash edge cases of two, three and four
backslashes before a quote, evaluate as claimed. -/
theorem split_commands_spec_equiv :
    (∀ input : List Char, split_commands input = splitCommandsSpec input)
    ∧ split_commands "sv_cheats 1; noclip; god".data
        = ["sv_cheats 1".data, "noclip".data, "god".data]
    ∧ split_commands "echo \"hello; world\"; quit".data
        = ["echo \"hello; world\"".data, "quit".data]
    ∧ split_commands "echo \"test\\\"inside\"; quit".data
        = ["echo \"test\\\"inside\"".data, "quit".data]
    ∧ split_commands "echo \"test\\\\\"; quit".data
        = ["echo \"test\\\\\"".data, "quit".data]
    ∧ split_commands "echo \"test\\\\\\\\\"; quit".data
        = ["echo \"test\\\\\\\\\"".data, "quit".data]
    ∧ split_commands "echo \"test\\\\\\\"inside\"; quit".data
        = ["echo \"test\\\\\\\"inside\"".data, "quit".data] := by
  refine ⟨?_, by decide, by decide, by decide, by decide, by decide,
    by decide⟩
  intro input
  unfold split_commands splitCommandsSpec
  simpa using splitGo_spec input input 0 0 false false 0 [] rfl rfl rfl

/-- C7: a READ_ONLY variable rejects `set` and `set_string` (returning
false with the state unchanged) and `reset` leaves it unchanged; a
non-read-only variable whose string fails to parse is likewise left
unchanged by `set_string`, which returns false. Stated generically over
any value-type dictionary, covering every `ConVarValue` instance. -/
theorem convar_readonly_and_parse_failure {α : Type}
    (impl : ConVarValueImpl α) (cv cv2 : ConVar α) (v : α) (s s2 : String)
    (h1 : cv.flags.contains ConVarFlags.READ_ONLY = true)
    (h2 : cv2.flags.contains ConVarFlags.READ_ONLY = false)
    (h3 : impl.parseV s2 = none) :
    cv.set impl v = (false, cv)
    ∧ cv.set_string impl s = (false, cv)
    ∧ cv.reset = cv
    ∧ cv2.set_string impl s2 = (false, cv2) := by
  refine ⟨?_, ?_, ?_, ?_⟩ <;>
    simp [ConVar.set, ConVar.set_string, ConVar.reset, h1, h2, h3]

/-- C9: every registry operation (register_var, register_cmd_meta,
register_cmd) preserves the agreement between the trie's stored keys and
the entry map's names, so for every registry built by registrations,
`contains`, `get_entry` and `prefix_iter` agree on which names exist: a
name appears under a prefix exactly when the prefix matches and the name is
contained; and every exposed mutation only ever adds its registered name to
the contained set (the registry has no removal operation). -/
theorem registry_trie_entries_agree :
    (∀ (ops : List RegOp) (n : String),
      (registryOfOps ops).trie.containsT n = (registryOfOps ops).containsR n)
    ∧ (∀ (ops : List RegOp) (n : String),
        (registryOfOps ops).containsR n
          = ((registryOfOps ops).get_entry n).isSome)
    ∧ (∀ (ops : List RegOp) (p n : String),
        (∃ e, (n, e) ∈ (registryOfOps ops).prefixIterR p)
          ↔ p.data.isPrefixOf n.data = true
            ∧ (registryOfOps ops).containsR n = true)
    ∧ (∀ (r : ConsoleRegistry) (op : RegOp) (n : String),
        (applyRegOp r op).containsR n
          = (r.containsR n || n == op.nameOf)) := by
  refine ⟨?_, ?_, ?_, ?_⟩
  · intro ops n
    simpa [Trie.containsT, ConsoleRegistry.containsR, mapContainsKey]
      using (regInv_ofOps ops).2 n
  · intro ops n
    rfl
  · intro ops p n
    obtain ⟨hwf, hag⟩ := regInv_ofOps ops
    constructor
    · rintro ⟨e, hmem⟩
      unfold ConsoleRegistry.prefixIterR at hmem
      rcases List.mem_filterMap.mp hmem with ⟨⟨k, u⟩, hin, hf⟩
      cases hg : mapGet (registryOfOps ops).entries k with
      | none => rw [hg] at hf; simp at hf
      | some e2 =>
        rw [hg] at hf
        simp at hf
        obtain ⟨hkn, he⟩ := hf
        subst hkn
        have hspec := (triePrefixIter_spec _ hwf p k u).mp hin
        exact ⟨hspec.1,
          by simp [ConsoleRegistry.containsR, mapContainsKey, hg]⟩
    · rintro ⟨hpre, hcon⟩
      simp only [ConsoleRegistry.containsR, mapContainsKey,
        Option.isSome_iff_exists] at hcon
      obtain ⟨e, hge⟩ := hcon
      have htrie : (registryOfOps ops).trie.get n = some () := by
        have hiso := hag n
        rw [hge] at hiso
        simp only [Option.isSome_some] at hiso
        cases hv : (registryOfOps ops).trie.get n with
        | none => rw [hv] at hiso; simp at hiso
        | some u => cases u; rfl
      have hmem := (triePrefixIter_spec _ hwf p n ()).mpr ⟨hpre, htrie⟩
      refine ⟨e, ?_⟩
      unfold ConsoleRegistry.prefixIterR
      exact List.mem_filterMap.mpr ⟨(n, ()), hmem, by simp [hge]⟩
  · intro r op n
    have key : ∀ (name : String) (e : ConEntry),
        mapContainsKey (mapInsert r.entries name e) n
          = (mapContainsKey r.entries n || n == name) := by
      intro name e
      by_cases hn : n = name
      · subst hn
        simp [mapContainsKey, mapGet_mapInsert_self]
      · simp [mapContainsKey, mapGet_mapInsert_ne r.entries name n e hn, hn]
    cases op with
    | regVar d =>
      simpa [applyRegOp, ConsoleRegistry.register_var,
        ConsoleRegistry.containsR, RegOp.nameOf]
        using key d.nameD (ConEntry.Var (ConVarMeta.from_convar d))
    | regCmdMeta m =>
      simpa [applyRegOp, ConsoleRegistry.register_cmd_meta,
        ConsoleRegistry.containsR, RegOp.nameOf]
        using key m.name (ConEntry.Cmd m)
    | regCmd c =>
      simpa [applyRegOp, ConsoleRegistry.register_cmd,
        ConsoleRegistry.containsR, RegOp.nameOf]
        using key c.meta.name (ConEntry.Cmd c.meta)

/-- C10: the default permission state is `Server`, the maximum of the
three-tier order, so `has_permission` holds for every required level and,
under default permissions, `check_access` either approves or rejects with
the cheat gate's reason — the permission gate can never be the rejecting
one. -/
theorem default_permissions_pass_all_gates :
    ConsolePermissions.defaultPerms.current_level = PermissionLevel.Server
    ∧ (∀ req : PermissionLevel,
        ConsolePermissions.defaultPerms.has_permission req = true)
    ∧ (∀ l : PermissionLevel, l.toNat ≤ PermissionLevel.Server.toNat)
    ∧ (∀ (reg : ConsoleRegistry) (hs : CommandHandlers)
        (pend : PendingCommands) (flags : ConVarFlags)
        (req : PermissionLevel),
        check_access ⟨reg, hs, ConsolePermissions.defaultPerms, pend⟩ flags req
            = Except.ok ()
          ∨ check_access ⟨reg, hs, ConsolePermissions.defaultPerms, pend⟩ flags
              req = Except.error "Requires sv_cheats to be enabled") := by
  refine ⟨rfl, ?_, ?_, ?_⟩
  · intro req
    cases req <;> decide
  · intro l
    cases l <;> decide
  · intro reg hs pend flags req
    unfold check_access
    by_cases h : flags.contains ConVarFlags.CHEAT
        ∧ ((⟨reg, hs, ConsolePermissions.defaultPerms, pend⟩ :
              World).registry.getI32 "sv_cheats").getD 0 = 0
    · right
      simp [h]
    · left
      have hperm : ConsolePermissions.defaultPerms.has_permission req = true := by
        cases req <;> decide
      simp [h, hperm]

/-- C3: characterization of the access gate in the pipeline. `check_access`
approves exactly when neither gate fails, where the cheat gate fails when
the flags include CHEAT and the `sv_cheats` integer is 0 or absent, and the
permission gate fails when the current level is below the required one;
when the cheat gate fails its reason is the one reported even if the
permission gate also fails. In `execute_pending_commands`, a command or a
variable set (one or more arguments) whose gate fails produces exactly the
rejection error output and leaves the world unchanged (handler not run,
value not changed); when the gate approves, the handler branch or the set
branch runs; a variable read (zero arguments) is dispatched with no gate,
and its output does not depend on the permission state. -/
theorem access_gate_characterization :
    (∀ (w : World) (flags : ConVarFlags) (req : PermissionLevel),
      (check_access w flags req = Except.ok ()
        ↔ ¬(flags.contains ConVarFlags.CHEAT = true
              ∧ (w.registry.getI32 "sv_cheats").getD 0 = 0)
          ∧ w.perms.has_permission req = true))
    ∧ (∀ (w : World) (flags : ConVarFlags) (req : PermissionLevel),
        flags.contains ConVarFlags.CHEAT = true →
        (w.registry.getI32 "sv_cheats").getD 0 = 0 →
        check_access w flags req
          = Except.error "Requires sv_cheats to be enabled")
    ∧ (∀ (w : World) (flags : ConVarFlags) (req : PermissionLevel),
        ¬(flags.contains ConVarFlags.CHEAT = true
            ∧ (w.registry.getI32 "sv_cheats").getD 0 = 0) →
        w.perms.has_permission req = false →
        check_access w flags req
          = Except.error ("Insufficient permission (requires " ++ req.name
              ++ ", have " ++ w.perms.current_level.name ++ ")"))
    ∧ (∀ (w : World) (cmd : QueuedCommand) (o : List OutputEvent)
        (c : List ChangeEvent) (meta : ConCommandMeta) (msg : String),
        w.registry.get_entry cmd.name = some (ConEntry.Cmd meta) →
        check_access w meta.flags meta.required_permission
          = Except.error msg →
        execCmdStep (w, o, c) cmd
          = (w,
              o ++ [OutputEvent.errorE
                      ("Cannot execute '" ++ cmd.name ++ "': " ++ msg)],
              c))
    ∧ (∀ (w : World) (cmd : QueuedCommand) (o : List OutputEvent)
        (c : List ChangeEvent) (meta : ConCommandMeta),
        w.registry.get_entry cmd.name = some (ConEntry.Cmd meta) →
        check_access w meta.flags meta.required_permission = Except.ok () →
        execCmdStep (w, o, c) cmd
          = ((runCommandBranch w cmd o).1, (runCommandBranch w cmd o).2, c))
    ∧ (∀ (w : World) (cmd : QueuedCommand) (o : List OutputEvent)
        (c : List ChangeEvent) (meta : ConVarMeta) (msg : String),
        cmd.args ≠ [] →
        w.registry.get_entry cmd.name = some (ConEntry.Var meta) →
        check_access w meta.flags meta.required_permission
          = Except.error msg →
        execCmdStep (w, o, c) cmd
          = (w,
              o ++ [OutputEvent.errorE
                      ("Cannot set '" ++ cmd.name ++ "': " ++ msg)],
              c))
    ∧ (∀ (w : World) (cmd : QueuedCommand) (o : List OutputEvent)
        (c : List ChangeEvent) (meta : ConVarMeta),
        cmd.args ≠ [] →
        w.registry.get_entry cmd.name = some (ConEntry.Var meta) →
        check_access w meta.flags meta.required_permission = Except.ok () →
        execCmdStep (w, o, c) cmd = runVarSetBranch w cmd o c)
    ∧ (∀ (w : World) (cmd : QueuedCommand) (o : List OutputEvent)
        (c : List ChangeEvent) (meta : ConVarMeta),
        cmd.args = [] →
        w.registry.get_entry cmd.name = some (ConEntry.Var meta) →
        execCmdStep (w, o, c) cmd = (w, runVarReadBranch w cmd o, c))
    ∧ (∀ (w : World) (p : ConsolePermissions) (cmd : QueuedCommand)
        (o : List OutputEvent),
        runVarReadBranch { w with perms := p } cmd o
          = runVarReadBranch w cmd o) := by
  refine ⟨?_, ?_, ?_, ?_, ?_, ?_, ?_, ?_, ?_⟩
  · intro w flags req
    unfold check_access
    constructor
    · intro h
      by_cases hc : flags.contains ConVarFlags.CHEAT = true
          ∧ (w.registry.getI32 "sv_cheats").getD 0 = 0
      · simp [hc] at h
      · refine ⟨hc, ?_⟩
        by_cases hp : w.perms.has_permission req = false
        · simp [hc, hp] at h
        · simpa using hp
    · rintro ⟨hc, hp⟩
      simp [hc, hp]
  · intro w flags req h1 h2
    unfold check_access
    simp [h1, h2]
  · intro w flags req hc hp
    unfold check_access
    simp [hc, hp]
  · intro w cmd o c meta msg hentry hgate
    simp [execCmdStep, hentry, hgate]
  · intro w cmd o c meta hentry hgate
    simp [execCmdStep, hentry, hgate]
  · intro w cmd o c meta msg hargs hentry hgate
    simp [execCmdStep, hentry, hgate, hargs]
  · intro w cmd o c meta hargs hentry hgate
    simp [execCmdStep, hentry, hgate, hargs]
  · intro w cmd o c meta hargs hentry
    simp [execCmdStep, hentry, hargs]
  · intro w p cmd o
    simp [runVarReadBranch]

/-- C3 (witness): a concrete world with `sv_cheats = 0` and a CHEAT-flagged
command `god_mode`: the cheat gate fails, the rejection error is emitted,
and the world is unchanged. -/
theorem access_gate_characterization_witness :
    execCmdStep
        (⟨⟨Trie.newT,
            [("sv_cheats",
              ConEntry.Var (ConVarMeta.from_convar
                (DynVar.dI32 (ConVar.new "sv_cheats" 0)))),
             ("god_mode",
              ConEntry.Cmd ⟨"god_mode", "", ConVarFlags.CHEAT,
                PermissionLevel.User⟩)]⟩,
          ⟨[], []⟩, ConsolePermissions.defaultPerms, ⟨[], [], [], false⟩⟩,
         [], [])
        ⟨"god_mode", "god_mode", []⟩
      = (⟨⟨Trie.newT,
            [("sv_cheats",
              ConEntry.Var (ConVarMeta.from_convar
                (DynVar.dI32 (ConVar.new "sv_cheats" 0)))),
             ("god_mode",
              ConEntry.Cmd ⟨"god_mode", "", ConVarFlags.CHEAT,
                PermissionLevel.User⟩)]⟩,
          ⟨[], []⟩, ConsolePermissions.defaultPerms, ⟨[], [], [], false⟩⟩,
         [OutputEvent.errorE
            ("Cannot execute 'god_mode': Requires sv_cheats to be enabled")],
         []) :=
  access_gate_characterization.2.2.2.1 _ ⟨"god_mode", "god_mode", []⟩ [] []
    ⟨"god_mode", "", ConVarFlags.CHEAT, PermissionLevel.User⟩
    "Requires sv_cheats to be enabled" (by decide) (by decide)

/-- C7 (witness): the read-only variable `ConVar::new("ro", 1)` with
`READ_ONLY` set rejects `set(5)`, `set_string("7")` and `reset`, and the
writable `ConVar::new("rw", 0)` rejects `set_string("abc")` since "abc"
does not parse as an `i32`. -/
theorem convar_readonly_and_parse_failure_witness :
    (ConVar.withFlags (ConVar.new "ro" (1 : Int))
        ConVarFlags.READ_ONLY).set i32Impl 5
      = (false, ConVar.withFlags (ConVar.new "ro" (1 : Int))
          ConVarFlags.READ_ONLY)
    ∧ (ConVar.withFlags (ConVar.new "ro" (1 : Int))
        ConVarFlags.READ_ONLY).set_string i32Impl "7"
      = (false, ConVar.withFlags (ConVar.new "ro" (1 : Int))
          ConVarFlags.READ_ONLY)
    ∧ (ConVar.withFlags (ConVar.new "ro" (1 : Int))
        ConVarFlags.READ_ONLY).reset
      = ConVar.withFlags (ConVar.new "ro" (1 : Int)) ConVarFlags.READ_ONLY
    ∧ (ConVar.new "rw" (0 : Int)).set_string i32Impl "abc"
      = (false, ConVar.new "rw" (0 : Int)) :=
  convar_readonly_and_parse_failure i32Impl _ _ 5 "7" "abc" (by decide)
    (by decide) (by decide)

end BevyConsoleTwo
